import Mathlib

/-!
# Verification of the Run Orchestration & Verification Gate core

A shallow embedding, in Lean 4, of the core of the `agentic-developer`
repository: the repository-confined file access of `src/lib/agent/tools/repo.ts`,
the verification engine and lcov coverage parser of
`src/lib/agent/tools/testRunner.ts`, the response interpreter of
`src/lib/agent/clients/gemini.ts`, and the unit-test gate, retry loop,
finalization and approval flow of `src/lib/agent/workflow.ts`.

Modelling conventions, used throughout:
* JavaScript strings are modelled as Lean `String` / `List Char`; all string
  manipulation is re-implemented with structural recursion over `List Char`
  so that concrete instances evaluate by `decide` / `rfl`.
* Filesystem paths are modelled at the granularity of path segments: an
  absolute path is a `List String` of its segments (no `""`, `"."` or `".."`
  entries once normalized).  `path.resolve` / `path.join` become segment
  normalization.  The repository root is assumed to be given in this already
  normalized form (`rootOk`).
* The filesystem is a map from resolved segment paths to file contents,
  `FS := List String → Option String`; a missing file is `none`.
* Fallible JavaScript code (functions that can `throw`) returns `Except` or
  `Option`.
* JavaScript numbers are modelled as `Nat`/`Int`/`ℚ`; the two-decimal
  rounding of `toFixed(2)` is modelled as exact rational rounding
  (ties away from zero for the nonnegative values that occur here, which is
  `round` on `ℚ`).
-/

namespace Agent

/-! ## Character-level string utilities (decide-friendly replacements for
JS `split` / `trim` / `includes` / `startsWith` / `endsWith` / `toLowerCase`). -/

/-- JS whitespace as used by `\s`, `trim()` — the ASCII subset that can occur
in the texts modelled here: space, tab, LF, CR, FF, VT. -/

def isWsChar (c : Char) : Bool :=
  c = ' ' || c = '\t' || c = '\n' || c = '\r' || c = Char.ofNat 12 || c = Char.ofNat 11

/-- ASCII `toLowerCase` on one character (the code only lower-cases ASCII names). -/

def toLowerCh (c : Char) : Char :=
  if 'A' ≤ c && c ≤ 'Z' then Char.ofNat (c.toNat + 32) else c

/-- Split a character list at every occurrence of `sep` (JS `String.split`:
`"a,,b".split(",") = ["a","","b"]`, `"".split(",") = [""]`). -/

def splitOnChar (sep : Char) : List Char → List (List Char)
  | [] => [[]]
  | c :: cs =>
    let rest := splitOnChar sep cs
    if c = sep then [] :: rest
    else
      match rest with
      | [] => [[c]]
      | r :: rs => (c :: r) :: rs

/-- Does `hay` contain `needle` as a contiguous subsequence (JS `includes`)? -/

def containsSeq (needle : List Char) : List Char → Bool
  | [] => needle.isEmpty
  | c :: cs => needle.isPrefixOf (c :: cs) || containsSeq needle cs

/-- JS `trim()` on a character list. -/

def trimChars (cs : List Char) : List Char :=
  ((cs.dropWhile isWsChar).reverse.dropWhile isWsChar).reverse

/-- Lower-case a whole character list. -/

def lowerChars (cs : List Char) : List Char := cs.map toLowerCh

/-- First index of character `c` in `cs` (JS `indexOf`, `none` for `-1`). -/

def indexOfChar (c : Char) : List Char → Option Nat
  | [] => none
  | d :: ds => if d = c then some 0 else (indexOfChar c ds).map (· + 1)

/-! ## Path model (`src/lib/agent/tools/repo.ts`)

`path.resolve` / `path.join` are modelled on segment lists:
a segment `""` or `"."` is dropped, `".."` pops the last accumulated
segment (staying at the filesystem root when there is nothing to pop),
anything else is appended. -/

/-- One step of Node path normalization. -/

def pathStep (acc : List String) (seg : String) : List String :=
  if seg = "" || seg = "." then acc
  else if seg = ".." then acc.dropLast
  else acc ++ [seg]

/-- Normalize `segs` on top of already-normalized `acc`. -/

def normAppend (acc : List String) (segs : List String) : List String :=
  segs.foldl pathStep acc

/-- Split a path string into raw segments at `/`. -/

def splitPath (s : String) : List String :=
  (splitOnChar '/' s.data).map (fun cs => String.mk cs)

/-- Is the path string absolute (starts with `/`)? -/

def isAbsPath (s : String) : Bool :=
  match s.data with
  | '/' :: _ => true
  | _ => false

/-- `path.resolve(repoPath, relativePath)`: an absolute `relativePath` ignores
the root, otherwise the segments are normalized on top of the root. -/

def resolvePath (root : List String) (rel : String) : List String :=
  if isAbsPath rel then normAppend [] (splitPath rel)
  else normAppend root (splitPath rel)

/-- `path.join(repoPath, relativePath)` (used by the snapshot-restore `fs.rm`):
join always concatenates, it never restarts at an absolute path. -/

def joinPath (root : List String) (rel : String) : List String :=
  normAppend root (splitPath rel)

/-- The repository root is given as an already-normalized absolute segment list. -/

def rootOk (root : List String) : Prop :=
  ∀ s ∈ root, s ≠ "" ∧ s ≠ "." ∧ s ≠ ".."

/-- The filesystem: resolved absolute segment path ↦ file content (`none` = absent). -/

def FS : Type := List String → Option String

/-- Point update of the filesystem (`some` = write, `none` = remove). -/

def fsWrite (fs : FS) (p : List String) (v : Option String) : FS :=
  fun q => if q = p then v else fs q

/-- `resolveInsideRepo` from `repo.ts`: resolve the relative path against the
repository root and refuse anything whose resolution is not the root itself or
strictly below it.  (On segment lists, `resolved === root` or
`resolved.startsWith(root + "/")` is exactly `root <+: resolved`.) -/

def resolveInsideRepo (root : List String) (rel : String) : Except String (List String) :=
  let resolved := resolvePath root rel
  if root.isPrefixOf resolved then .ok resolved
  else .error ("Invalid file path outside repo: " ++ rel)

/-- `readFileIfExists` from `repo.ts`: path confinement check, then a read
whose own failure (absent file) is caught and mapped to `null`. -/

def readFileIfExists (fs : FS) (root : List String) (rel : String) :
    Except String (Option String) :=
  match resolveInsideRepo root rel with
  | .error e => .error e
  | .ok p => .ok (fs p)

/-- `writeFile` from `repo.ts`: path confinement check, then write
(the `mkdir -p` of the parent is invisible in a flat file map). -/

def writeFile (fs : FS) (root : List String) (rel : String) (content : String) :
    Except String FS :=
  match resolveInsideRepo root rel with
  | .error e => .error e
  | .ok p => .ok (fsWrite fs p (some content))

/-! ## Data model (`src/lib/agent/types.ts`) -/

/-- `DraftEdit` from `types.ts`: a complete replacement file body. -/

structure DraftEdit where
  path : String
  content : String
  rationale : String
deriving DecidableEq

/-- `RepoSnapshot` from `types.ts`.  `languageSummary` is a
`Record<string, number>`; an absent key behaves as `0` under the `Boolean()`
coercions the core applies to it, so it is modelled as a total function with
default `0`. -/

structure RepoSnapshot where
  fileCount : Nat
  topLevelEntries : List String
  languageSummary : String → Nat
  sampleFiles : List String
  techStack : List String
  testingGuidance : List String

/-! ## Unit-test gate (`src/lib/agent/workflow.ts`, `passesUnitTestGate` /
`isSourceLikePath` / `isTestLikePath`) -/

/-- Replace every backslash by a forward slash (the path normalization at the
top of `isTestLikePath` and of the coverage mapping). -/

def replaceBackslash (cs : List Char) : List Char :=
  cs.map (fun c => if c = '\\' then '/' else c)

/-- Does `cs` end with `sfx` (JS `endsWith`)? -/

def endsWithSeq (sfx cs : List Char) : Bool :=
  sfx.reverse.isPrefixOf cs.reverse

/-- `isTestLikePath` from `workflow.ts`. -/

def isTestLikePath (filePath : String) : Bool :=
  let normalized := replaceBackslash filePath.data
  let lower := lowerChars normalized
  let baseName := lowerChars ((splitOnChar '/' normalized).getLastD [])
  containsSeq "/__tests__/".data lower ||
  containsSeq "/tests/".data lower ||
  containsSeq "/test/".data lower ||
  endsWithSeq ".test.ts".data baseName ||
  endsWithSeq ".test.tsx".data baseName ||
  endsWithSeq ".test.js".data baseName ||
  endsWithSeq ".spec.ts".data baseName ||
  endsWithSeq ".spec.js".data baseName ||
  endsWithSeq "_test.go".data baseName ||
  ("test_".data.isPrefixOf baseName && endsWithSeq ".py".data baseName) ||
  endsWithSeq "test.py".data baseName ||
  endsWithSeq "test.java".data baseName

/-- The source-file extensions of `isSourceLikePath`. -/

def sourceExtensions : List String :=
  [".ts", ".tsx", ".js", ".jsx", ".java", ".kt", ".py", ".go", ".cs"]

/-- `isSourceLikePath` from `workflow.ts`: source-like by extension, excluding
anything already matching the test-path heuristic. -/

def isSourceLikePath (filePath : String) : Bool :=
  let lower := lowerChars filePath.data
  sourceExtensions.any (fun ext => endsWithSeq ext.data lower) && !isTestLikePath filePath

/-- The `requiresTests` computation inside `passesUnitTestGate`:
`Boolean()` of the per-language file counts. -/

def requiresTests (repo : RepoSnapshot) : Bool :=
  repo.languageSummary "TypeScript" != 0 ||
  repo.languageSummary "JavaScript" != 0 ||
  repo.languageSummary "Java" != 0 ||
  repo.languageSummary "Kotlin" != 0 ||
  repo.languageSummary "Python" != 0 ||
  repo.languageSummary "Go" != 0

/-- `passesUnitTestGate` from `workflow.ts`. -/

def passesUnitTestGate (edits : List DraftEdit) (repo : RepoSnapshot) : Bool :=
  if edits.length = 0 then false
  else
    let sourceEdits := edits.filter (fun e => isSourceLikePath e.path)
    if sourceEdits.length = 0 then true
    else if !requiresTests repo then true
    else edits.any (fun e => isTestLikePath e.path)


/-! ## The JSON value model and the response interpreter
(`src/lib/agent/clients/gemini.ts`)

JavaScript `JSON.parse` / `JSON.stringify` are external to the repository; they
are modelled by an executable parser `jparseChars` and serializer `renderJson`
over an inductive `Json` value type (numbers restricted to integers, strings
to unicode scalar sequences).  `parseJsonObject`, `extractBalancedJsonValue`,
`stripCodeFences`, `repairInvalidStringEscapes` and
`sanitizeControlCharsInStrings` are translated from `gemini.ts`; the external
`jsonrepair` library is a parameter `rep` of the embedding.  -/

inductive Json where
  | null : Json
  | bool (b : Bool) : Json
  | num (n : Int) : Json
  | str (s : String) : Json
  | arr (items : List Json) : Json
  | obj (fields : List (String × Json)) : Json

def digitChar (n : Nat) : Char := Char.ofNat (48 + n)

def hexDigitChar (n : Nat) : Char :=
  if n < 10 then Char.ofNat (48 + n) else Char.ofNat (87 + n)

def natDigitsAux : Nat → Nat → List Char → List Char
  | 0, _, acc => acc
  | fuel + 1, n, acc =>
    if n = 0 then acc
    else natDigitsAux fuel (n / 10) (digitChar (n % 10) :: acc)

def natDigits (n : Nat) : List Char :=
  if n = 0 then ['0'] else natDigitsAux (n + 1) n []

def escapeChar (c : Char) : List Char :=
  if c = '"' then ['\\', '"']
  else if c = '\\' then ['\\', '\\']
  else if c.toNat < 32 then
    ['\\', 'u', '0', '0', hexDigitChar (c.toNat / 16), hexDigitChar (c.toNat % 16)]
  else [c]

def escapeString (cs : List Char) : List Char :=
  cs.foldr (fun c acc => escapeChar c ++ acc) []

def intChars (n : Int) : List Char :=
  if n < 0 then '-' :: natDigits n.natAbs else natDigits n.toNat

mutual

def renderJson : Json → List Char
  | .null => ['n', 'u', 'l', 'l']
  | .bool b => if b then ['t', 'r', 'u', 'e'] else ['f', 'a', 'l', 's', 'e']
  | .num n => intChars n
  | .str s => '"' :: escapeString s.data ++ ['"']
  | .arr items => '[' :: renderItems items ++ [']']
  | .obj fields => '{' :: renderFields fields ++ ['}']

def renderItems : List Json → List Char
  | [] => []
  | [v] => renderJson v
  | v :: w :: rest => renderJson v ++ ',' :: renderItems (w :: rest)

def renderFields : List (String × Json) → List Char
  | [] => []
  | [(k, v)] => '"' :: escapeString k.data ++ ['"', ':'] ++ renderJson v
  | (k, v) :: f :: rest =>
    ('"' :: escapeString k.data ++ ['"', ':'] ++ renderJson v) ++ ',' :: renderFields (f :: rest)

end

def skipWs : List Char → List Char
  | [] => []
  | c :: cs => if isWsChar c then skipWs cs else c :: cs

def stripPfx : List Char → List Char → Option (List Char)
  | [], cs => some cs
  | _ :: _, [] => none
  | p :: ps, c :: cs => if c = p then stripPfx ps cs else none

def hexVal? (c : Char) : Option Nat :=
  if '0' ≤ c && c ≤ '9' then some (c.toNat - 48)
  else if 'a' ≤ c && c ≤ 'f' then some (c.toNat - 87)
  else if 'A' ≤ c && c ≤ 'F' then some (c.toNat - 55)
  else none

def consStr (c : Char) (r : Option (List Char × List Char)) :
    Option (List Char × List Char) :=
  r.map (fun p => (c :: p.1, p.2))

def parseStringBody : List Char → Option (List Char × List Char)
  | [] => none
  | c :: cs =>
    if c = '"' then some ([], cs)
    else if c = '\\' then
      match cs with
      | [] => none
      | e :: cs2 =>
        if e = '"' then consStr '"' (parseStringBody cs2)
        else if e = '\\' then consStr '\\' (parseStringBody cs2)
        else if e = '/' then consStr '/' (parseStringBody cs2)
        else if e = 'b' then consStr (Char.ofNat 8) (parseStringBody cs2)
        else if e = 'f' then consStr (Char.ofNat 12) (parseStringBody cs2)
        else if e = 'n' then consStr '\n' (parseStringBody cs2)
        else if e = 'r' then consStr '\r' (parseStringBody cs2)
        else if e = 't' then consStr '\t' (parseStringBody cs2)
        else if e = 'u' then
          match cs2 with
          | h1 :: h2 :: h3 :: h4 :: cs3 =>
            match hexVal? h1, hexVal? h2, hexVal? h3, hexVal? h4 with
            | some a, some b, some c3, some d =>
              consStr (Char.ofNat (((a * 16 + b) * 16 + c3) * 16 + d)) (parseStringBody cs3)
            | _, _, _, _ => none
          | _ => none
        else none
    else if c.toNat < 32 then none
    else consStr c (parseStringBody cs)

def takeDigits : List Char → Nat → Nat × List Char
  | [], acc => (acc, [])
  | c :: cs, acc =>
    if c.isDigit then takeDigits cs (acc * 10 + (c.toNat - 48)) else (acc, c :: cs)

def parseNumber : List Char → Option (Int × List Char)
  | [] => none
  | c :: rest =>
    if c = '-' then
      match rest with
      | [] => none
      | d :: _ =>
        if d.isDigit then
          let p := takeDigits rest 0
          some (-(p.1 : Int), p.2)
        else none
    else if c.isDigit then
      let p := takeDigits (c :: rest) 0
      some ((p.1 : Int), p.2)
    else none

mutual

def parseVal : Nat → List Char → Option (Json × List Char)
  | 0, _ => none
  | fuel + 1, cs =>
    match skipWs cs with
    | [] => none
    | c :: rest =>
      if c = '{' then
        match skipWs rest with
        | [] => none
        | d :: rest2 =>
          if d = '}' then some (.obj [], rest2)
          else (parseFields fuel (d :: rest2)).map (fun p => (Json.obj p.1, p.2))
      else if c = '[' then
        match skipWs rest with
        | [] => none
        | d :: rest2 =>
          if d = ']' then some (.arr [], rest2)
          else (parseItems fuel (d :: rest2)).map (fun p => (Json.arr p.1, p.2))
      else if c = '"' then
        (parseStringBody rest).map (fun p => (Json.str (String.mk p.1), p.2))
      else if c = 't' then
        (stripPfx ['r', 'u', 'e'] rest).map (fun r => (Json.bool true, r))
      else if c = 'f' then
        (stripPfx ['a', 'l', 's', 'e'] rest).map (fun r => (Json.bool false, r))
      else if c = 'n' then
        (stripPfx ['u', 'l', 'l'] rest).map (fun r => (Json.null, r))
      else
        (parseNumber (c :: rest)).map (fun p => (Json.num p.1, p.2))

def parseItems : Nat → List Char → Option (List Json × List Char)
  | 0, _ => none
  | fuel + 1, cs =>
    match parseVal fuel cs with
    | none => none
    | some (v, rest) =>
      match skipWs rest with
      | [] => none
      | e :: rest2 =>
        if e = ',' then
          (parseItems fuel rest2).map (fun p => (v :: p.1, p.2))
        else if e = ']' then some ([v], rest2)
        else none

def parseFields : Nat → List Char → Option (List (String × Json) × List Char)
  | 0, _ => none
  | fuel + 1, cs =>
    match skipWs cs with
    | [] => none
    | c :: rest =>
      if c = '"' then
        match parseStringBody rest with
        | none => none
        | some (key, rest2) =>
          match skipWs rest2 with
          | [] => none
          | d :: rest3 =>
            if d = ':' then
              match parseVal fuel rest3 with
              | none => none
              | some (v, rest4) =>
                match skipWs rest4 with
                | [] => none
                | e :: rest5 =>
                  if e = ',' then
                    (parseFields fuel rest5).map (fun p => ((String.mk key, v) :: p.1, p.2))
                  else if e = '}' then some ([(String.mk key, v)], rest5)
                  else none
            else none
      else none

end

def jparseChars (cs : List Char) : Option Json :=
  match parseVal (cs.length + 1) cs with
  | some (v, rest) => if skipWs rest = [] then some v else none
  | none => none

def headNotDigit (cs : List Char) : Prop :=
  ∀ c, cs.head? = some c → c.isDigit = false

def numRestOk (v : Json) (rest : List Char) : Prop :=
  ∀ m : Int, v = Json.num m → headNotDigit rest

def scanFrom (oC cC : Char) : List Char → Int → Bool → Bool → Option Nat
  | [], _, _, _ => none
  | c :: cs, depth, inStr, esc =>
    if inStr then
      if esc then (scanFrom oC cC cs depth inStr false).map (· + 1)
      else if c = '\\' then (scanFrom oC cC cs depth inStr true).map (· + 1)
      else if c = '"' then (scanFrom oC cC cs depth false false).map (· + 1)
      else (scanFrom oC cC cs depth inStr false).map (· + 1)
    else
      if c = '"' then (scanFrom oC cC cs depth true false).map (· + 1)
      else if c = oC then (scanFrom oC cC cs (depth + 1) false false).map (· + 1)
      else if c = cC then
        if depth - 1 = 0 then some 1
        else (scanFrom oC cC cs (depth - 1) false false).map (· + 1)
      else (scanFrom oC cC cs depth false false).map (· + 1)

def selectStart : Option Nat → Option Nat → Option (Nat × Char × Char)
  | some b, some k => if b < k then some (b, '{', '}') else some (k, '[', ']')
  | some b, none => some (b, '{', '}')
  | none, some k => some (k, '[', ']')
  | none, none => none

def extractBalancedJsonValue (cs : List Char) : Option (List Char) :=
  match selectStart (indexOfChar '{' cs) (indexOfChar '[' cs) with
  | none => none
  | some (start, oC, cC) =>
    match scanFrom oC cC (cs.drop start) 0 false false with
    | some count => some ((cs.drop start).take count)
    | none => none

def scanPlain (c : Char) : Prop := c ≠ '"' ∧ c ≠ '{' ∧ c ≠ '}'

instance (c : Char) : Decidable (scanPlain c) := by
  unfold scanPlain
  infer_instance

def matchCI : List Char → List Char → Option (List Char)
  | [], cs => some cs
  | _ :: _, [] => none
  | p :: ps, c :: cs => if toLowerCh c = p then matchCI ps cs else none

def stripFenceFront (cs : List Char) : List Char :=
  match stripPfx ['`', '`', '`'] cs with
  | none => cs
  | some rest =>
    let rest2 :=
      match matchCI ['j', 's', 'o', 'n'] rest with
      | some r => r
      | none => rest
    rest2.dropWhile isWsChar

def stripFenceBack (cs : List Char) : List Char :=
  match stripPfx ['`', '`', '`'] cs.reverse with
  | none => cs
  | some rest => (rest.dropWhile isWsChar).reverse

def stripCodeFences (cs : List Char) : List Char :=
  stripFenceBack (stripFenceFront cs)

def braceFree (cs : List Char) : Prop := '{' ∉ cs ∧ '[' ∉ cs

instance (cs : List Char) : Decidable (braceFree cs) := by
  unfold braceFree
  infer_instance

def simpleEscapeTargets : List Char := ['"', '\\', '/', 'b', 'f', 'n', 'r', 't']

def fourHex : List Char → Bool
  | a :: b :: c :: d :: _ =>
    (hexVal? a).isSome && (hexVal? b).isSome && (hexVal? c).isSome && (hexVal? d).isSome
  | _ => false

def repairEscAux : List Char → Bool → Bool → List Char
  | [], _, _ => []
  | c :: cs, inStr, esc =>
    if inStr = false then c :: repairEscAux cs (c = '"') false
    else if esc then c :: repairEscAux cs true false
    else if c = '"' then c :: repairEscAux cs false false
    else if c = '\\' then
      match cs.head? with
      | some nc =>
        if simpleEscapeTargets.contains nc || (nc = 'u' && fourHex cs.tail) then
          '\\' :: repairEscAux cs true true
        else
          '\\' :: '\\' :: repairEscAux cs true false
      | none => '\\' :: '\\' :: repairEscAux cs true false
    else c :: repairEscAux cs true false

def repairInvalidStringEscapes (cs : List Char) : List Char :=
  repairEscAux cs false false

def sanitizeAux : List Char → Bool → Bool → List Char
  | [], _, _ => []
  | c :: cs, inStr, esc =>
    if inStr = false then c :: sanitizeAux cs (c = '"') false
    else if esc then c :: sanitizeAux cs true false
    else if c = '\\' then c :: sanitizeAux cs true true
    else if c = '"' then c :: sanitizeAux cs false false
    else if c.toNat ≤ 31 then
      '\\' :: 'u' :: '0' :: '0' :: hexDigitChar (c.toNat / 16) ::
        hexDigitChar (c.toNat % 16) :: sanitizeAux cs true false
    else c :: sanitizeAux cs true false

def sanitizeControlCharsInStrings (cs : List Char) : List Char :=
  sanitizeAux cs false false

def parseJsonLenient (rep : List Char → Option (List Char)) (cs : List Char) : Option Json :=
  match jparseChars cs with
  | some v => some v
  | none =>
    match jparseChars (repairInvalidStringEscapes cs) with
    | some v => some v
    | none =>
      match jparseChars (sanitizeControlCharsInStrings (repairInvalidStringEscapes cs)) with
      | some v => some v
      | none => (rep cs).bind jparseChars

def isObjLike : Json → Bool
  | .obj _ => true
  | _ => false

inductive RespErr where
  | noJson (preview : List Char) : RespErr
  | notObject (preview : List Char) : RespErr
  | lenientFailed : RespErr

def parseJsonObject (rep : List Char → Option (List Char)) (raw : List Char) :
    Except RespErr Json :=
  match extractBalancedJsonValue (trimChars (stripCodeFences raw)) with
  | none => .error (.noJson ((trimChars (stripCodeFences raw)).take 240))
  | some jsonText =>
    match parseJsonLenient rep jsonText with
    | none => .error .lenientFailed
    | some parsed =>
      if isObjLike parsed then .ok parsed
      else
        match parsed with
        | .arr items =>
          match items.find? isObjLike with
          | some o => .ok o
          | none => .error (.notObject (jsonText.take 240))
        | _ => .error (.notObject (jsonText.take 240))


/-! ## Verification engine (`src/lib/agent/tools/testRunner.ts`)

`runTestsAndCollectCoverage` shells out to a package-manager test command.
The two external effects are explicit parameters of the model: the filesystem
is the `FS` value threaded through every call, and the `child_process.exec`
invocation is an `ExecOutcome` oracle carrying its success bit, its captured
stdout/stderr, and the (arbitrary) filesystem transformation performed by the
command while it ran. -/

/-- `Number.parseInt(s, 10)`: skip leading whitespace, read an optional sign
and then a maximal digit run; `none` models `NaN` (no digit found). -/

def parseIntJS (cs : List Char) : Option Int :=
  match cs.dropWhile isWsChar with
  | [] => none
  | c :: rest =>
    if c = '-' then
      match rest with
      | d :: _ => if d.isDigit then some (-((takeDigits rest 0).1 : Int)) else none
      | [] => none
    else if c = '+' then
      match rest with
      | d :: _ => if d.isDigit then some ((takeDigits rest 0).1 : Int) else none
      | [] => none
    else if c.isDigit then some ((takeDigits (c :: rest) 0).1 : Int)
    else none

/-- `CoverageAggregate` from `testRunner.ts`. -/

structure CoverageAggregate where
  coveredLines : Nat
  totalLines : Nat
deriving DecidableEq

/-- JS `Map.set` on an insertion-ordered association list: an existing key is
updated in place, a new key is appended. -/

def aggSet (m : List (String × CoverageAggregate)) (k : String)
    (v : CoverageAggregate) : List (String × CoverageAggregate) :=
  if m.any (fun kv => kv.1 == k) then
    m.map (fun kv => if kv.1 = k then (k, v) else kv)
  else m ++ [(k, v)]

/-- JS `Map.get`. -/

def aggLookup (m : List (String × CoverageAggregate)) (k : String) :
    Option CoverageAggregate :=
  (m.find? (fun kv => kv.1 == k)).map (fun kv => kv.2)

/-- `normalizePath` from `testRunner.ts`: replace every backslash by `/`. -/

def normalizePathStr (s : String) : String :=
  String.mk (replaceBackslash s.data)

/-- Render a segment list back to a `/`-separated path string
(the serialization side of `path.relative`). -/

def joinSegs : List String → List Char
  | [] => []
  | [s] => s.data
  | s :: rest => s.data ++ '/' :: joinSegs rest

/-- `path.relative` on two normalized segment lists: drop the common prefix,
then one `..` per remaining segment of the start, then the remaining segments
of the target. -/

def relSegs : List String → List String → List String
  | f :: fs, t :: ts =>
    if f = t then relSegs fs ts else (f :: fs).map (fun _ => "..") ++ t :: ts
  | [], ts => ts
  | fs, [] => fs.map (fun _ => "..")

/-- `normalizeLcovPath` from `testRunner.ts`: an absolute `SF:` path is kept,
a relative one is resolved against the repository root; the result is made
root-relative and backslash-normalized. -/

def normalizeLcovPath (root : List String) (f : String) : String :=
  let absolute :=
    if isAbsPath f then normAppend [] (splitPath f) else normAppend root (splitPath f)
  normalizePathStr (String.mk (joinSegs (relSegs root absolute)))

/-- The `flush()` closure of `parseLcovFile`: a falsy (absent or empty)
current file flushes nothing. -/

def lcovFlush (root : List String) (currentFile : Option String)
    (covered total : Nat) (m : List (String × CoverageAggregate)) :
    List (String × CoverageAggregate) :=
  match currentFile with
  | none => m
  | some f =>
    if f = "" then m
    else aggSet m (normalizeLcovPath root f) ⟨covered, total⟩

/-- The line loop of `parseLcovFile`: `SF:` flushes and starts a record,
`DA:` counts a data line (covered when its hit count parses `> 0`),
`end_of_record` flushes and clears, anything else is skipped. -/

def parseLcovLines (root : List String) :
    List (List Char) → Option String → Nat → Nat →
    List (String × CoverageAggregate) → List (String × CoverageAggregate)
  | [], currentFile, covered, total, m => lcovFlush root currentFile covered total m
  | line :: rest, currentFile, covered, total, m =>
    if "SF:".data.isPrefixOf line then
      parseLcovLines root rest (some (String.mk (trimChars (line.drop 3)))) 0 0
        (lcovFlush root currentFile covered total m)
    else if "DA:".data.isPrefixOf line then
      let parts := splitOnChar ',' (line.drop 3)
      let covered2 :=
        match parseIntJS (parts.getD 1 ['0']) with
        | some hits => if 0 < hits then covered + 1 else covered
        | none => covered
      parseLcovLines root rest currentFile covered2 (total + 1) m
    else if line = "end_of_record".data then
      parseLcovLines root rest none 0 0 (lcovFlush root currentFile covered total m)
    else parseLcovLines root rest currentFile covered total m

/-- `parseLcovFile` on file content already in hand: split on `\n` and run the
line loop with an empty state. -/

def parseLcovContent (root : List String) (raw : String) :
    List (String × CoverageAggregate) :=
  parseLcovLines root (splitOnChar '\n' raw.data) none 0 0 []

/-- `parseLcovFile` from `testRunner.ts`: a missing report file yields the
empty map (the `readFile` failure is caught). -/

def parseLcovFile (fs : FS) (p root : List String) :
    List (String × CoverageAggregate) :=
  match fs p with
  | none => []
  | some raw => parseLcovContent root raw

/-- `Number(x.toFixed(2))` for the nonnegative rationals that occur here:
round `100·x` to the nearest integer and divide back. -/

def round2 (q : ℚ) : ℚ := ((round (q * 100) : ℤ) : ℚ) / 100

/-- `FileCoverage` from `types.ts` (`lineCoveragePercent: number | null`). -/

structure FileCoverage where
  path : String
  coveredLines : Nat
  totalLines : Nat
  lineCoveragePercent : Option ℚ
deriving DecidableEq

/-- `toCoverageEntry` from `testRunner.ts`. -/

def toCoverageEntry (pathValue : String) (agg : Option CoverageAggregate) :
    FileCoverage :=
  match agg with
  | none => ⟨normalizePathStr pathValue, 0, 0, none⟩
  | some a =>
    ⟨normalizePathStr pathValue, a.coveredLines, a.totalLines,
     if a.totalLines = 0 then none
     else some (round2 (((a.coveredLines : ℚ) / (a.totalLines : ℚ)) * 100))⟩

/-- `computeOverallCoverage` from `testRunner.ts`. -/

def computeOverallCoverage (entries : List FileCoverage) : Option ℚ :=
  let totalLines : Nat := entries.foldl (fun sum item => sum + item.totalLines) 0
  if totalLines = 0 then none
  else
    let coveredLines : Nat := entries.foldl (fun sum item => sum + item.coveredLines) 0
    some (round2 (((coveredLines : ℚ) / (totalLines : ℚ)) * 100))

/-- `truncate` from `testRunner.ts`. -/

def truncate (value : String) (max : Nat) : String :=
  if value.data.length ≤ max then value
  else String.mk (value.data.take max ++ "\n...<truncated>".data)

/-- `TestStrategy` from `testRunner.ts`. -/

structure TestStrategy where
  command : String
  lcovRelativePath : String
deriving DecidableEq

/-- JS property access on a parsed JSON object: `JSON.parse` keeps the last
occurrence of a duplicated key. -/

def jsField (fields : List (String × Json)) (key : String) : Option Json :=
  (fields.reverse.find? (fun kv => kv.1 == key)).map (fun kv => kv.2)

/-- JS truthiness of a possibly-absent JSON value. -/

def jsTruthy : Option Json → Bool
  | none => false
  | some Json.null => false
  | some (Json.bool b) => b
  | some (Json.num n) => n != 0
  | some (Json.str s) => s != ""
  | some (Json.arr _) => true
  | some (Json.obj _) => true

/-- The `scripts` lookup of `resolveTestStrategy`: `JSON.parse(raw).scripts`
with every failure (missing file, parse error, non-object) collapsing to the
empty record. -/

def scriptsOf (raw : Option String) : List (String × Json) :=
  match raw with
  | none => []
  | some content =>
    match jparseChars content.data with
    | some (Json.obj fields) =>
      match jsField fields "scripts" with
      | some (Json.obj scriptFields) => scriptFields
      | _ => []
    | _ => []

/-- `detectPackageManager` from `testRunner.ts`: lockfile sniffing. -/

def detectPackageManager (fs : FS) (root : List String) : String :=
  if (fs (joinPath root "pnpm-lock.yaml")).isSome then "pnpm"
  else if (fs (joinPath root "yarn.lock")).isSome then "yarn"
  else "npm"

/-- `resolveTestStrategy` from `testRunner.ts`: only the Node.js/lcov strategy
exists; any repository without TypeScript/JavaScript files, or without a
truthy `test:coverage` / `coverage` / `test` script, gets no strategy. -/

def resolveTestStrategy (fs : FS) (root : List String) (repo : RepoSnapshot) :
    Option TestStrategy :=
  let hasNode :=
    repo.languageSummary "TypeScript" != 0 || repo.languageSummary "JavaScript" != 0
  if !hasNode then none
  else
    let scripts := scriptsOf (fs (joinPath root "package.json"))
    let manager := detectPackageManager fs root
    if jsTruthy (jsField scripts "test:coverage") then
      some ⟨manager ++ " run test:coverage", "coverage/lcov.info"⟩
    else if jsTruthy (jsField scripts "coverage") then
      some ⟨manager ++ " run coverage", "coverage/lcov.info"⟩
    else if jsTruthy (jsField scripts "test") then
      some ⟨manager ++ " run test -- --coverage", "coverage/lcov.info"⟩
    else none

/-- `TestExecutionReport` from `types.ts`; the optional JS fields are
`Option`s. -/

structure TestExecutionReport where
  executed : Bool
  success : Bool
  command : Option String
  failureCause : Option String
  overallLineCoveragePercent : Option ℚ
  fileCoverage : List FileCoverage
  notes : List String
  stdoutSnippet : Option String
  stderrSnippet : Option String
deriving DecidableEq

/-- The `execAsync` oracle: did the command resolve or reject, what output did
it capture, and how did it transform the working tree while running. -/

structure ExecOutcome where
  ok : Bool
  stdout : String
  stderr : String
  fsTransform : FS → FS

/-- JS `Map.set` for the snapshot map (`string → string | null`). -/

def snapSet (m : List (String × Option String)) (k : String) (v : Option String) :
    List (String × Option String) :=
  if m.any (fun kv => kv.1 == k) then
    m.map (fun kv => if kv.1 = k then (k, v) else kv)
  else m ++ [(k, v)]

/-- The snapshot loop of `runTestsAndCollectCoverage` (runs before the `try`,
so its `readFileIfExists` failure propagates with nothing written). -/

def snapshotEdits (fs : FS) (root : List String) :
    List DraftEdit → List (String × Option String) →
    Except String (List (String × Option String))
  | [], acc => .ok acc
  | e :: rest, acc =>
    match readFileIfExists fs root e.path with
    | .error msg => .error msg
    | .ok content => snapshotEdits fs root rest (snapSet acc e.path content)

/-- The write loop at the top of the `try` block; on a throw the edits written
so far stay written (the pair carries the partial filesystem). -/

def applyEdits (root : List String) : List DraftEdit → FS → Except String Unit × FS
  | [], fs => (.ok (), fs)
  | e :: rest, fs =>
    match writeFile fs root e.path e.content with
    | .error msg => (.error msg, fs)
    | .ok fs2 => applyEdits root rest fs2

/-- The `finally` loop: a `null` snapshot is removed with
`fs.rm(path.join(repoPath, filePath), force)` — note `path.join`, not the
`resolveInsideRepo` resolution used by `writeFile` — and a non-`null` one is
written back through `writeFile`. -/

def restoreSnapshots (root : List String) :
    List (String × Option String) → FS → Except String Unit × FS
  | [], fs => (.ok (), fs)
  | (p, none) :: rest, fs =>
    restoreSnapshots root rest (fsWrite fs (joinPath root p) none)
  | (p, some content) :: rest, fs =>
    match writeFile fs root p content with
    | .error msg => (.error msg, fs)
    | .ok fs2 => restoreSnapshots root rest fs2

/-- The per-edit coverage mapping shared by the success and the catch branch
(the `.filter(item => item !== null)` of the source is vacuous:
`toCoverageEntry` never returns `null`). -/

def coverageFor (fs : FS) (root : List String) (strategy : TestStrategy)
    (edits : List DraftEdit) : List FileCoverage :=
  let coverageByFile := parseLcovFile fs (joinPath root strategy.lcovRelativePath) root
  edits.map (fun e => toCoverageEntry e.path (aggLookup coverageByFile (normalizePathStr e.path)))

/-- The early-return report when no strategy resolves. -/

def noStrategyReport : TestExecutionReport :=
  ⟨false, false, none, none, none, [],
   ["No supported coverage strategy detected.",
    "Currently implemented: JavaScript/TypeScript Node.js repositories with lcov output."],
   none, none⟩

/-- The report of the success branch. -/

def runSuccessReport (strategy : TestStrategy) (changed : List FileCoverage)
    (stdout stderr : String) : TestExecutionReport :=
  ⟨true, true, some strategy.command, none, computeOverallCoverage changed, changed,
   ["Tests executed successfully with coverage."],
   some (truncate stdout 4000), some (truncate stderr 2000)⟩

/-- The report of the catch branch. -/

def runFailureReport (strategy : TestStrategy) (changed : List FileCoverage)
    (stdout stderr : String) : TestExecutionReport :=
  ⟨true, false, some strategy.command, none, computeOverallCoverage changed, changed,
   ["Tests failed. Review stderr/stdout before approval."],
   some (truncate stdout 4000), some (truncate stderr 4000)⟩

/-- Leaving the `try`/`catch`/`finally`: run the restore loop; a restore throw
replaces the pending return value, otherwise the report is returned. -/

def finishRun (root : List String) (originalContents : List (String × Option String))
    (report : TestExecutionReport) (fs : FS) :
    Except String TestExecutionReport × FS :=
  match (restoreSnapshots root originalContents fs).1 with
  | Except.error msg => (.error msg, (restoreSnapshots root originalContents fs).2)
  | Except.ok _ => (.ok report, (restoreSnapshots root originalContents fs).2)

/-- `runTestsAndCollectCoverage` from `testRunner.ts`.  The `catch` wraps the
whole `try` body, so a `writeFile` throw inside it also lands in the failure
report (with empty output snippets, since a plain `Error` has no
`stdout`/`stderr` fields); the exec oracle's transformation applies only when
the command actually ran. -/

def runTestsAndCollectCoverage (root : List String) (repo : RepoSnapshot)
    (edits : List DraftEdit) (outcome : ExecOutcome) (fs : FS) :
    Except String TestExecutionReport × FS :=
  match resolveTestStrategy fs root repo with
  | none => (.ok noStrategyReport, fs)
  | some strategy =>
    match snapshotEdits fs root edits [] with
    | .error msg => (.error msg, fs)
    | .ok originalContents =>
      match (applyEdits root edits fs).1 with
      | Except.error _ =>
        finishRun root originalContents
          (runFailureReport strategy
            (coverageFor (applyEdits root edits fs).2 root strategy edits) "" "")
          (applyEdits root edits fs).2
      | Except.ok _ =>
        if outcome.ok then
          finishRun root originalContents
            (runSuccessReport strategy
              (coverageFor (outcome.fsTransform (applyEdits root edits fs).2)
                root strategy edits)
              outcome.stdout outcome.stderr)
            (outcome.fsTransform (applyEdits root edits fs).2)
        else
          finishRun root originalContents
            (runFailureReport strategy
              (coverageFor (outcome.fsTransform (applyEdits root edits fs).2)
                root strategy edits)
              outcome.stdout outcome.stderr)
            (outcome.fsTransform (applyEdits root edits fs).2)

/-! ## Run records, store, retry loop, finalization and approval
(`src/lib/agent/workflow.ts`, `src/lib/agent/instructions.ts` store,
`src/lib/agent/types.ts`)

The reasoning service is an oracle `gen : Nat → String → Except String
EditPayload` mapping the attempt number and the feedback string of
`generateText` + `parseJsonObject` to the parsed payload (or the thrown
error); the git/GitLab helpers are a `GitOracle` of their results.  Calls to
`writeFile` / `getDiff` / `stageCommitAndGetSha` / `pushBranch` /
`createMergeRequest` / `appendFeedback` are recorded in an effect trace. -/

/-- `MAX_EDIT_ATTEMPTS` from `workflow.ts`. -/

def MAX_EDIT_ATTEMPTS : Nat := 2

/-- `UNIT_TEST_RETRY_FEEDBACK` from `workflow.ts`. -/

def UNIT_TEST_RETRY_FEEDBACK : String :=
  "Revise the edits to include unit tests aligned to the detected stack and changed behavior."

/-- The edit payload parsed from the reasoning service
(the return type of `generateEditsWithUnitTestGate`). -/

structure EditPayload where
  edits : List DraftEdit
  summary : String
  commitTitle : Option String
  prDescription : Option String
deriving DecidableEq

/-- The `for (attempt = 1; attempt <= MAX_EDIT_ATTEMPTS; ...)` loop of
`generateEditsWithUnitTestGate`, structurally recursive on the remaining
attempts and counting the requests made; after the loop, a null
`lastPayload` means generation itself always threw. -/

def generateEditsLoop (gen : Nat → String → Except String EditPayload)
    (repo : RepoSnapshot) :
    Nat → Nat → String → Option EditPayload → Except String EditPayload × Nat
  | 0, calls, _, lastPayload =>
    (match lastPayload with
     | none => .error "Failed to generate edits."
     | some _ =>
       .error "Generated edits did not include required unit-test updates for the detected tech stack. Please provide feedback and retry.",
     calls)
  | remaining + 1, calls, feedback, _ =>
    match gen (MAX_EDIT_ATTEMPTS - remaining) feedback with
    | .error e => (.error e, calls + 1)
    | .ok payload =>
      if passesUnitTestGate payload.edits repo then (.ok payload, calls + 1)
      else
        generateEditsLoop gen repo remaining (calls + 1)
          (feedback ++ "\n" ++ UNIT_TEST_RETRY_FEEDBACK) (some payload)

/-- `generateEditsWithUnitTestGate` from `workflow.ts` for a run whose context
is present; the second component counts the reasoning-service requests. -/

def generateEditsWithUnitTestGate (gen : Nat → String → Except String EditPayload)
    (repo : RepoSnapshot) (feedback : String) : Except String EditPayload × Nat :=
  generateEditsLoop gen repo MAX_EDIT_ATTEMPTS 0 feedback none

/-- `TrackerTask` from `types.ts` (the fields the modelled flows read). -/

structure TrackerTask where
  id : String
  title : String
  description : String
  labels : List String

/-- `DesignProposal` from `types.ts` (the fields the modelled flows read). -/

structure DesignProposal where
  branchNameSuggestion : String
  commitTitle : String
  prTitle : String
deriving DecidableEq

/-- The context guard at the top of `generateEditsWithUnitTestGate`. -/

def generateEditsForRun (gen : Nat → String → Except String EditPayload)
    (task : Option TrackerTask) (repo : Option RepoSnapshot)
    (proposal : Option DesignProposal) (feedback : String) :
    Except String EditPayload × Nat :=
  match task, repo, proposal with
  | some _, some r, some _ => generateEditsWithUnitTestGate gen r feedback
  | _, _, _ => (.error "Run is missing proposal context.", 0)

/-- `AgentRunInput` from `types.ts`; `repoPath` is carried in the normalized
segment form of the path model. -/

structure AgentRunInput where
  taskId : String
  tracker : String
  repoPath : List String
  targetBranch : String
  dryRun : Bool

/-- The run lifecycle states of `AgentRunRecord.status`. -/

inductive RunStatus where
  | awaiting_approval
  | applying
  | done
  | rejected
  | failed
deriving DecidableEq

/-- `AgentRunRecord` from `types.ts`. -/

structure AgentRunRecord where
  runId : String
  createdAt : String
  input : AgentRunInput
  status : RunStatus
  task : Option TrackerTask
  repo : Option RepoSnapshot
  proposal : Option DesignProposal
  stagedEdits : Option (List DraftEdit)
  branchName : Option String
  diffPreview : Option String
  feedbackHistory : List String
  finalSummary : Option String
  mergeRequestUrl : Option String
  error : Option String

/-- The in-memory `runStore` of `instructions.ts`, as a map. -/

def RunStore : Type := String → Option AgentRunRecord

/-- `runStore.set`. -/

def storeSet (store : RunStore) (runId : String) (record : AgentRunRecord) :
    RunStore :=
  fun k => if k = runId then some record else store k

/-- `updateRun` from the store: throws `Run not found: <id>` for a missing
run, otherwise merges the update into the existing record, stores and returns
it.  The `Partial<AgentRunRecord>` spread-merge is the update function. -/

def updateRun (store : RunStore) (runId : String)
    (update : AgentRunRecord → AgentRunRecord) :
    Except String (AgentRunRecord × RunStore) :=
  match store runId with
  | none => .error ("Run not found: " ++ runId)
  | some existing =>
    let merged := update existing
    .ok (merged, storeSet store runId merged)

/-- One observable side effect of the finalize/approval flow: a repository
file write, the diff computation, the git commit, the git push, the
merge-request publication, or the feedback-memory append. -/

inductive GitEffect where
  | write (path content : String)
  | diff
  | commit (message : String)
  | push (branch : String)
  | mergeRequest (sourceBranch targetBranch title description : String)
  | feedback (repoPath : List String) (note : String) (accepted : Bool)
deriving DecidableEq

/-- The results of the git/GitLab helper calls, as an oracle. -/

structure GitOracle where
  diffResult : String
  commitResult : Except String String
  pushResult : Except String Unit
  mergeRequestResult : Except String (Option String)

/-- `FinalizeResult` from `types.ts`. -/

structure FinalizeResult where
  changedFiles : List String
  commitSha : Option String
  mergeRequestUrl : Option String
  summary : String
deriving DecidableEq

/-- `resolveFinalEdits` from `workflow.ts`: staged edits are reused exactly
when they exist and are non-empty, the repository snapshot is present, the
approval carried no (non-blank) feedback, and the staged set still passes the
unit-test gate; otherwise regeneration through the gate loop. -/

def resolveFinalEdits (gen : Nat → String → Except String EditPayload)
    (run : AgentRunRecord) (feedback : Option String) :
    Except String EditPayload :=
  match run.stagedEdits, run.repo with
  | some staged, some repo =>
    if 0 < staged.length &&
       (match feedback with
        | none => true
        | some f => (trimChars f.data).isEmpty) &&
       passesUnitTestGate staged repo then
      .ok ⟨staged, "Applied previously staged draft edits after approval.",
           run.proposal.map (fun p => p.commitTitle),
           some "Automated edits approved by reviewer."⟩
    else
      (generateEditsForRun gen run.task run.repo run.proposal
        (feedback.getD "No additional feedback")).1
  | _, _ =>
    (generateEditsForRun gen run.task run.repo run.proposal
      (feedback.getD "No additional feedback")).1

/-- The edit-write loop of `finalizeApprovedRun`: each `writeFile` first
validates its path with `resolveInsideRepo` (the filesystem action itself is
modelled by `writeFile` on `FS`; here the effect trace records the calls), and
a throw aborts the loop with the earlier writes kept. -/

def writeEditsTrace (root : List String) :
    List DraftEdit → Except String Unit × List GitEffect
  | [] => (.ok (), [])
  | e :: rest =>
    match resolveInsideRepo root e.path with
    | .error msg => (.error msg, [])
    | .ok _ =>
      let r := writeEditsTrace root rest
      (r.1, GitEffect.write e.path e.content :: r.2)

/-- `finalizeApprovedRun` from `workflow.ts`.  No `try`/`catch`: every throw
(context guard, edit resolution, a write, `updateRun`, commit, push,
merge-request) propagates to the caller, with the effects so far kept. -/

def finalizeApprovedRun (git : GitOracle)
    (gen : Nat → String → Except String EditPayload)
    (run : AgentRunRecord) (feedback : Option String) (store : RunStore) :
    Except String FinalizeResult × RunStore × List GitEffect :=
  match run.task, run.repo, run.proposal, run.branchName with
  | some task, some _, some proposal, some branchName =>
    match resolveFinalEdits gen run feedback with
    | .error e => (.error e, store, [])
    | .ok editPayload =>
      match writeEditsTrace run.input.repoPath editPayload.edits with
      | (Except.error msg, trace) => (.error msg, store, trace)
      | (Except.ok _, trace0) =>
        let changedFiles := editPayload.edits.map (fun e => e.path)
        let trace := trace0 ++ [GitEffect.diff]
        match updateRun store run.runId
            (fun r => { r with diffPreview := some git.diffResult }) with
        | .error e => (.error e, store, trace)
        | .ok (_, store1) =>
          if run.input.dryRun then
            (.ok ⟨changedFiles, none, none,
               editPayload.summary ++
                 "\n\nDry-run mode is enabled. Review diff and manually commit/push/create MR."⟩,
             store1, trace)
          else
            let commitMessage := editPayload.commitTitle.getD proposal.commitTitle
            let trace1 := trace ++ [GitEffect.commit commitMessage]
            match git.commitResult with
            | .error e => (.error e, store1, trace1)
            | .ok commitSha =>
              let trace2 := trace1 ++ [GitEffect.push branchName]
              match git.pushResult with
              | .error e => (.error e, store1, trace2)
              | .ok _ =>
                let description :=
                  editPayload.prDescription.getD ("Automated changes for " ++ task.id)
                let trace3 := trace2 ++
                  [GitEffect.mergeRequest branchName run.input.targetBranch
                    proposal.prTitle description]
                match git.mergeRequestResult with
                | .error e => (.error e, store1, trace3)
                | .ok mergeRequestUrl =>
                  (.ok ⟨changedFiles, some commitSha, mergeRequestUrl,
                     editPayload.summary ++
                       (match mergeRequestUrl with
                        | some u => if u = "" then "" else "\nMerge request: " ++ u
                        | none => "")⟩,
                   store1, trace3)
  | _, _, _, _ => (.error "Run is missing proposal context.", store, [])

/-- `approveOrRejectRun` from `workflow.ts`.  The rejection path appends
trimmed-or-default feedback to memory and marks the run `rejected`; the
approval path marks the run `applying`, runs `finalizeApprovedRun` — with no
`try`/`catch`, so a finalize throw propagates and the `applying` status is
never replaced — and only on success appends feedback and marks the run
`done`. -/

def approveOrRejectRun (git : GitOracle)
    (gen : Nat → String → Except String EditPayload)
    (runId : String) (approved : Bool) (feedback : Option String)
    (store : RunStore) :
    Except String AgentRunRecord × RunStore × List GitEffect :=
  match store runId with
  | none => (.error "Run not found", store, [])
  | some run =>
    if !approved then
      let fb :=
        match feedback with
        | some f =>
          if (trimChars f.data).isEmpty then "Rejected without detailed feedback."
          else String.mk (trimChars f.data)
        | none => "Rejected without detailed feedback."
      let eff := GitEffect.feedback run.input.repoPath fb false
      match updateRun store run.runId
          (fun r =>
            { r with status := RunStatus.rejected,
                     feedbackHistory := run.feedbackHistory ++ [fb],
                     finalSummary := some "Run rejected by reviewer." }) with
      | .error e => (.error e, store, [eff])
      | .ok (merged, store1) => (.ok merged, store1, [eff])
    else
      match updateRun store run.runId
          (fun r => { r with status := RunStatus.applying }) with
      | .error e => (.error e, store, [])
      | .ok (_, store1) =>
        match finalizeApprovedRun git gen run feedback store1 with
        | (Except.error e, store2, trace) => (.error e, store2, trace)
        | (Except.ok finalized, store2, trace) =>
          let fb2 :=
            match feedback with
            | some f =>
              if (trimChars f.data).isEmpty then "Approved"
              else String.mk (trimChars f.data)
            | none => "Approved"
          let eff := GitEffect.feedback run.input.repoPath fb2 true
          match updateRun store2 run.runId
              (fun r =>
                { r with status := RunStatus.done,
                         finalSummary := some finalized.summary,
                         mergeRequestUrl := finalized.mergeRequestUrl,
                         feedbackHistory :=
                           match feedback with
                           | some f =>
                             if f = "" then run.feedbackHistory
                             else run.feedbackHistory ++ [f]
                           | none => run.feedbackHistory }) with
          | .error e => (.error e, store2, trace ++ [eff])
          | .ok (merged, store3) => (.ok merged, store3, trace ++ [eff])

/-! ## Fixture builders (construct concrete lcov reports for the theorems) -/

/-- Join lines with `\n` (the inverse of the `raw.split("\n")` of
`parseLcovFile`, for building report fixtures). -/

def unlines : List (List Char) → List Char
  | [] => []
  | [l] => l
  | l :: rest => l ++ '\n' :: unlines rest

/-- An lcov `DA:<line>,<hits>` data line. -/

def daLine (ln hits : Nat) : List Char :=
  "DA:".data ++ (natDigits ln ++ ',' :: natDigits hits)

/-- A one-file lcov report: `SF:` line, data lines, `end_of_record`. -/

def lcovRecord (f : String) (pairs : List (Nat × Nat)) : List Char :=
  unlines (("SF:".data ++ f.data) ::
    (pairs.map (fun pr => daLine pr.1 pr.2) ++ ["end_of_record".data]))

/-! ## Theorems -/

theorem skipWs_cons_of_not_ws {c : Char} (cs : List Char) (h : isWsChar c = false) :
    skipWs (c :: cs) = c :: cs := by
  simp [skipWs, h]

theorem stripPfx_append (ps rest : List Char) : stripPfx ps (ps ++ rest) = some rest := by
  induction ps with
  | nil => rfl
  | cons p ps ih => simp [stripPfx, ih]

theorem hexVal?_hexDigitChar {m : Nat} (h : m < 16) : hexVal? (hexDigitChar m) = some m := by
  interval_cases m <;> decide

theorem escapeString_cons (c : Char) (cs : List Char) :
    escapeString (c :: cs) = escapeChar c ++ escapeString cs := rfl

theorem parseStringBody_escape (s rest : List Char) :
    parseStringBody (escapeString s ++ '"' :: rest) = some (s, rest) := by
  induction s with
  | nil =>
    show parseStringBody ([] ++ '"' :: rest) = some ([], rest)
    rw [List.nil_append, parseStringBody.eq_def]
    simp
  | cons c cs ih =>
    rw [escapeString_cons]
    by_cases hq : c = '"'
    · subst hq
      simp only [escapeChar, if_pos rfl, List.cons_append, List.nil_append]
      rw [parseStringBody.eq_def]
      simp +decide [consStr, ih]
    · by_cases hb : c = '\\'
      · subst hb
        simp +decide only [escapeChar, List.cons_append, List.nil_append, ite_true, ite_false]
        rw [parseStringBody.eq_def]
        simp +decide [consStr, ih]
      · by_cases hc : c.toNat < 32
        · have h16 : c.toNat / 16 < 16 := by omega
          have h16' : c.toNat % 16 < 16 := by omega
          simp only [escapeChar, hq, hb, hc, if_true, if_false, ite_false, ite_true,
            List.cons_append, List.nil_append]
          have h0 : hexVal? '0' = some 0 := by decide
          rw [parseStringBody.eq_def]
          simp +decide [hexVal?_hexDigitChar h16, hexVal?_hexDigitChar h16', consStr, ih]
          rw [h0]
          simp only []
          rw [show ((0 * 16 + 0) * 16 + c.toNat / 16) * 16 + c.toNat % 16 = c.toNat by omega]
          rw [Char.ofNat_toNat]
        · simp only [escapeChar, hq, hb, hc, if_false, ite_false, List.cons_append,
            List.nil_append]
          rw [parseStringBody.eq_def]
          simp [hq, hb, hc, consStr, ih]

theorem digitChar_isDigit {m : Nat} (h : m < 10) :
    (digitChar m).isDigit = true ∧ (digitChar m).toNat = 48 + m := by
  interval_cases m <;> exact ⟨by decide, by decide⟩

theorem isDigit_facts {c : Char} (h : c.isDigit = true) :
    c ≠ '{' ∧ c ≠ '[' ∧ c ≠ '"' ∧ c ≠ 't' ∧ c ≠ 'f' ∧ c ≠ 'n' ∧ c ≠ '-' ∧
    c ≠ ']' ∧ c ≠ '}' ∧ c ≠ ',' ∧ c ≠ ':' ∧ isWsChar c = false := by
  refine ⟨fun he => absurd (he ▸ h) (by decide), fun he => absurd (he ▸ h) (by decide),
    fun he => absurd (he ▸ h) (by decide), fun he => absurd (he ▸ h) (by decide),
    fun he => absurd (he ▸ h) (by decide), fun he => absurd (he ▸ h) (by decide),
    fun he => absurd (he ▸ h) (by decide), fun he => absurd (he ▸ h) (by decide),
    fun he => absurd (he ▸ h) (by decide), fun he => absurd (he ▸ h) (by decide),
    fun he => absurd (he ▸ h) (by decide), ?_⟩
  cases hw : isWsChar c
  · rfl
  · exfalso
    have hor : c = ' ' ∨ c = '\t' ∨ c = '\n' ∨ c = '\x0d' ∨
        c = Char.ofNat 12 ∨ c = Char.ofNat 11 := by
      simpa [isWsChar, or_assoc] using hw
    rcases hor with h1 | h1 | h1 | h1 | h1 | h1 <;> (subst h1; exact absurd h (by decide))

theorem natDigitsAux_zero (fuel : Nat) (acc : List Char) :
    natDigitsAux fuel 0 acc = acc := by
  cases fuel <;> simp [natDigitsAux]

theorem natDigitsAux_acc (fuel : Nat) : ∀ (n : Nat) (acc : List Char),
    natDigitsAux fuel n acc = natDigitsAux fuel n [] ++ acc := by
  induction fuel with
  | zero => intro n acc; simp [natDigitsAux]
  | succ fuel ih =>
    intro n acc
    by_cases h : n = 0
    · subst h; simp [natDigitsAux]
    · rw [natDigitsAux, if_neg h, natDigitsAux, if_neg h]
      rw [ih (n / 10) (digitChar (n % 10) :: acc), ih (n / 10) [digitChar (n % 10)]]
      simp

theorem takeDigits_not_digit {cs : List Char} (a : Nat)
    (h : ∀ c, cs.head? = some c → c.isDigit = false) : takeDigits cs a = (a, cs) := by
  cases cs with
  | nil => rfl
  | cons c cs => simp [takeDigits, h c rfl]

theorem takeDigits_natDigitsAux (fuel : Nat) : ∀ (n : Nat) (acc rest : List Char) (a : Nat),
    n < 10 ^ fuel →
      takeDigits (natDigitsAux fuel n acc ++ rest) a =
        takeDigits (acc ++ rest) (a * 10 ^ (natDigitsAux fuel n []).length + n) := by
  induction fuel with
  | zero =>
    intro n acc rest a h
    interval_cases n
    simp [natDigitsAux]
  | succ fuel ih =>
    intro n acc rest a h
    by_cases hn : n = 0
    · subst hn; simp [natDigitsAux_zero]
    · rw [natDigitsAux, if_neg hn]
      have hdiv : n / 10 < 10 ^ fuel := by
        rw [Nat.div_lt_iff_lt_mul (by norm_num)]
        calc n < 10 ^ (fuel + 1) := h
          _ = 10 ^ fuel * 10 := by ring
      rw [ih (n / 10) (digitChar (n % 10) :: acc) rest a hdiv]
      have hd := digitChar_isDigit (Nat.mod_lt n (by norm_num) : n % 10 < 10)
      rw [List.cons_append, takeDigits, if_pos hd.1]
      have hlen : (natDigitsAux (fuel + 1) n []).length =
          (natDigitsAux fuel (n / 10) []).length + 1 := by
        rw [natDigitsAux, if_neg hn, natDigitsAux_acc]
        simp
      rw [hlen, hd.2]
      congr 1
      have hmod := Nat.div_add_mod n 10
      have hstep : (a * 10 ^ (natDigitsAux fuel (n / 10) []).length + n / 10) * 10 +
          (48 + n % 10 - 48) =
          a * (10 ^ (natDigitsAux fuel (n / 10) []).length * 10) +
            (10 * (n / 10) + n % 10) := by
        have h48 : 48 + n % 10 - 48 = n % 10 := by omega
        rw [h48]
        ring
      rw [hstep, hmod, ← pow_succ]

theorem takeDigits_natDigits {rest : List Char} (n : Nat)
    (h : ∀ c, rest.head? = some c → c.isDigit = false) :
    takeDigits (natDigits n ++ rest) 0 = (n, rest) := by
  by_cases hn : n = 0
  · subst hn
    rw [natDigits, if_pos rfl, List.cons_append, List.nil_append]
    rw [takeDigits, if_pos (by decide)]
    rw [takeDigits_not_digit _ h]
    norm_num [show ('0').toNat = 48 from by decide]
  · rw [natDigits, if_neg hn]
    have hlt : n < 10 ^ (n + 1) := by
      calc n < 10 ^ n := Nat.lt_pow_self (by norm_num) n
        _ ≤ 10 ^ (n + 1) := Nat.pow_le_pow_right (by norm_num) (Nat.le_succ n)
    rw [takeDigits_natDigitsAux (n + 1) n [] rest 0 hlt]
    rw [List.nil_append, takeDigits_not_digit _ h]
    simp

theorem natDigitsAux_head (fuel : Nat) : ∀ n : Nat, 0 < n → n < 10 ^ fuel →
    ∃ c cs, natDigitsAux fuel n [] = c :: cs ∧ c.isDigit = true := by
  induction fuel with
  | zero => intro n h0 h; omega
  | succ fuel ih =>
    intro n h0 h
    rw [natDigitsAux, if_neg (by omega)]
    by_cases hq : n / 10 = 0
    · rw [hq, natDigitsAux_zero]
      exact ⟨digitChar (n % 10), [],
        rfl, (digitChar_isDigit (Nat.mod_lt n (by norm_num))).1⟩
    · have hdiv : n / 10 < 10 ^ fuel := by
        rw [Nat.div_lt_iff_lt_mul (by norm_num)]
        calc n < 10 ^ (fuel + 1) := h
          _ = 10 ^ fuel * 10 := by ring
      obtain ⟨c, cs, hcs, hd⟩ := ih (n / 10) (Nat.pos_of_ne_zero hq) hdiv
      rw [natDigitsAux_acc, hcs]
      exact ⟨c, cs ++ [digitChar (n % 10)], by simp, hd⟩

theorem natDigits_head (n : Nat) :
    ∃ c cs, natDigits n = c :: cs ∧ c.isDigit = true := by
  by_cases hn : n = 0
  · subst hn
    exact ⟨'0', [], rfl, by decide⟩
  · rw [natDigits, if_neg hn]
    exact natDigitsAux_head (n + 1) n (Nat.pos_of_ne_zero hn)
      (by
        calc n < 10 ^ n := Nat.lt_pow_self (by norm_num) n
          _ ≤ 10 ^ (n + 1) := Nat.pow_le_pow_right (by norm_num) (Nat.le_succ n))

theorem parseNumber_intChars (n : Int) (rest : List Char)
    (h : ∀ c, rest.head? = some c → c.isDigit = false) :
    parseNumber (intChars n ++ rest) = some (n, rest) := by
  by_cases hneg : n < 0
  · rw [intChars, if_pos hneg, List.cons_append]
    obtain ⟨c, cs, hcs, hd⟩ := natDigits_head n.natAbs
    rw [parseNumber.eq_def]
    simp only [hcs, List.cons_append, ite_true, if_true]
    rw [if_pos hd]
    rw [← List.cons_append, ← hcs, takeDigits_natDigits n.natAbs h]
    have habs : -((n.natAbs : Nat) : Int) = n := by omega
    rw [habs]
  · rw [intChars, if_neg hneg]
    obtain ⟨c, cs, hcs, hd⟩ := natDigits_head n.toNat
    have hf := isDigit_facts hd
    rw [hcs, List.cons_append, parseNumber.eq_def]
    simp only []
    rw [if_neg hf.2.2.2.2.2.2.1, if_pos hd]
    rw [← List.cons_append, ← hcs, takeDigits_natDigits n.toNat h]
    have htn : ((n.toNat : Nat) : Int) = n := by omega
    rw [htn]

theorem stringMk_data (s : String) : String.mk s.data = s := by
  cases s
  rfl

theorem renderItems_cons (v : Json) (vs : List Json) :
    renderItems (v :: vs) =
      renderJson v ++ (if vs.isEmpty then [] else ',' :: renderItems vs) := by
  cases vs with
  | nil => simp [renderItems]
  | cons w ws => simp [renderItems]

theorem renderFields_cons (k : String) (v : Json) (fs : List (String × Json)) :
    renderFields ((k, v) :: fs) =
      '"' :: escapeString k.data ++ ['"', ':'] ++ renderJson v ++
        (if fs.isEmpty then [] else ',' :: renderFields fs) := by
  cases fs with
  | nil => simp [renderFields]
  | cons f fs2 => simp [renderFields]

theorem renderJson_head (v : Json) :
    ∃ c cs, renderJson v = c :: cs ∧ isWsChar c = false ∧
      c ≠ ']' ∧ c ≠ '}' ∧ c ≠ ',' := by
  cases v with
  | null => exact ⟨'n', _, rfl, by decide, by decide, by decide, by decide⟩
  | bool b =>
    cases b
    · exact ⟨'f', _, rfl, by decide, by decide, by decide, by decide⟩
    · exact ⟨'t', _, rfl, by decide, by decide, by decide, by decide⟩
  | num n =>
    by_cases hneg : n < 0
    · refine ⟨'-', natDigits n.natAbs, ?_, by decide, by decide, by decide, by decide⟩
      rw [show renderJson (Json.num n) = intChars n from rfl, intChars, if_pos hneg]
    · obtain ⟨c, cs, hcs, hd⟩ := natDigits_head n.toNat
      have hf := isDigit_facts hd
      refine ⟨c, cs, ?_, hf.2.2.2.2.2.2.2.2.2.2.2, hf.2.2.2.2.2.2.2.1,
        hf.2.2.2.2.2.2.2.2.1, hf.2.2.2.2.2.2.2.2.2.1⟩
      rw [show renderJson (Json.num n) = intChars n from rfl, intChars, if_neg hneg, hcs]
  | str s => exact ⟨'"', _, rfl, by decide, by decide, by decide, by decide⟩
  | arr items =>
    exact ⟨'[', renderItems items ++ [']'], rfl, by decide, by decide, by decide, by decide⟩
  | obj fields =>
    exact ⟨'{', renderFields fields ++ ['}'], rfl, by decide, by decide, by decide, by decide⟩

theorem headNotDigit_cons {c : Char} (h : c.isDigit = false) (cs : List Char) :
    headNotDigit (c :: cs) := by
  intro d hd
  simp at hd
  rw [← hd]
  exact h

theorem parseVal_succ (fuel : Nat) (cs : List Char) :
    parseVal (fuel + 1) cs =
      match skipWs cs with
      | [] => none
      | c :: rest =>
        if c = '{' then
          match skipWs rest with
          | [] => none
          | d :: rest2 =>
            if d = '}' then some (.obj [], rest2)
            else (parseFields fuel (d :: rest2)).map (fun p => (Json.obj p.1, p.2))
        else if c = '[' then
          match skipWs rest with
          | [] => none
          | d :: rest2 =>
            if d = ']' then some (.arr [], rest2)
            else (parseItems fuel (d :: rest2)).map (fun p => (Json.arr p.1, p.2))
        else if c = '"' then
          (parseStringBody rest).map (fun p => (Json.str (String.mk p.1), p.2))
        else if c = 't' then
          (stripPfx ['r', 'u', 'e'] rest).map (fun r => (Json.bool true, r))
        else if c = 'f' then
          (stripPfx ['a', 'l', 's', 'e'] rest).map (fun r => (Json.bool false, r))
        else if c = 'n' then
          (stripPfx ['u', 'l', 'l'] rest).map (fun r => (Json.null, r))
        else
          (parseNumber (c :: rest)).map (fun p => (Json.num p.1, p.2)) := rfl

theorem parseItems_succ (fuel : Nat) (cs : List Char) :
    parseItems (fuel + 1) cs =
      match parseVal fuel cs with
      | none => none
      | some (v, rest) =>
        match skipWs rest with
        | [] => none
        | e :: rest2 =>
          if e = ',' then (parseItems fuel rest2).map (fun p => (v :: p.1, p.2))
          else if e = ']' then some ([v], rest2)
          else none := rfl

theorem parseFields_succ (fuel : Nat) (cs : List Char) :
    parseFields (fuel + 1) cs =
      match skipWs cs with
      | [] => none
      | c :: rest =>
        if c = '"' then
          match parseStringBody rest with
          | none => none
          | some (key, rest2) =>
            match skipWs rest2 with
            | [] => none
            | d :: rest3 =>
              if d = ':' then
                match parseVal fuel rest3 with
                | none => none
                | some (v, rest4) =>
                  match skipWs rest4 with
                  | [] => none
                  | e :: rest5 =>
                    if e = ',' then
                      (parseFields fuel rest5).map (fun p => ((String.mk key, v) :: p.1, p.2))
                    else if e = '}' then some ([(String.mk key, v)], rest5)
                    else none
              else none
        else none := rfl

theorem parse_render_roundtrip : ∀ fuel : Nat,
    (∀ v rest, (renderJson v).length ≤ fuel → numRestOk v rest →
       parseVal fuel (renderJson v ++ rest) = some (v, rest)) ∧
    (∀ items rest, items ≠ [] → (renderItems items).length < fuel →
       parseItems fuel (renderItems items ++ ']' :: rest) = some (items, rest)) ∧
    (∀ fields rest, fields ≠ [] → (renderFields fields).length < fuel →
       parseFields fuel (renderFields fields ++ '}' :: rest) = some (fields, rest)) := by
  intro fuel
  induction fuel with
  | zero =>
    refine ⟨?_, ?_, ?_⟩
    · intro v rest hlen _
      obtain ⟨c, cs, hcs, -⟩ := renderJson_head v
      rw [hcs] at hlen
      simp at hlen
    · intro items rest _ hlen
      exact absurd hlen (Nat.not_lt_zero _)
    · intro fields rest _ hlen
      exact absurd hlen (Nat.not_lt_zero _)
  | succ fuel ih =>
    obtain ⟨ihP, ihQ, ihR⟩ := ih
    refine ⟨?_, ?_, ?_⟩
    · intro v rest hlen hnum
      cases v with
      | null =>
        have hstrip : stripPfx ['u', 'l', 'l'] ('u' :: 'l' :: 'l' :: rest) = some rest :=
          stripPfx_append ['u', 'l', 'l'] rest
        rw [show renderJson Json.null = ['n', 'u', 'l', 'l'] from rfl]
        rw [parseVal.eq_def]
        simp +decide [skipWs, hstrip]
      | bool b =>
        cases b
        · have hstrip : stripPfx ['a', 'l', 's', 'e'] ('a' :: 'l' :: 's' :: 'e' :: rest) =
              some rest := stripPfx_append ['a', 'l', 's', 'e'] rest
          rw [show renderJson (Json.bool false) = ['f', 'a', 'l', 's', 'e'] from rfl]
          rw [parseVal.eq_def]
          simp +decide [skipWs, hstrip]
        · have hstrip : stripPfx ['r', 'u', 'e'] ('r' :: 'u' :: 'e' :: rest) = some rest :=
            stripPfx_append ['r', 'u', 'e'] rest
          rw [show renderJson (Json.bool true) = ['t', 'r', 'u', 'e'] from rfl]
          rw [parseVal.eq_def]
          simp +decide [skipWs, hstrip]
      | str s =>
        rw [show renderJson (Json.str s) = '"' :: escapeString s.data ++ ['"'] from rfl]
        rw [parseVal.eq_def]
        have hshape : ('"' :: escapeString s.data ++ ['"']) ++ rest =
            '"' :: (escapeString s.data ++ '"' :: rest) := by simp
        rw [hshape]
        simp +decide [skipWs, parseStringBody_escape, stringMk_data]
      | num n =>
        have hrest : headNotDigit rest := hnum n rfl
        rw [show renderJson (Json.num n) = intChars n from rfl]
        by_cases hneg : n < 0
        · have hic : intChars n = '-' :: natDigits n.natAbs := by
            rw [intChars, if_pos hneg]
          rw [hic, List.cons_append, parseVal.eq_def]
          simp +decide [skipWs]
          rw [← List.cons_append, ← hic]
          exact parseNumber_intChars n rest hrest
        · obtain ⟨c, cs, hcs, hd⟩ := natDigits_head n.toNat
          have hf := isDigit_facts hd
          have hic : intChars n = natDigits n.toNat := by
            rw [intChars, if_neg hneg]
          have hws : isWsChar c = false := hf.2.2.2.2.2.2.2.2.2.2.2
          rw [hic, hcs, List.cons_append, parseVal.eq_def]
          simp only [skipWs, hws, Bool.false_eq_true, if_false, ite_false]
          simp only [hf.1, hf.2.1, hf.2.2.1, hf.2.2.2.1, hf.2.2.2.2.1, hf.2.2.2.2.2.1,
            ite_false, if_false]
          rw [← List.cons_append, ← hcs, ← hic]
          rw [parseNumber_intChars n rest hrest]
          rfl
      | arr items =>
        cases items with
        | nil =>
          rw [show renderJson (Json.arr []) = ['[', ']'] from rfl]
          rw [parseVal.eq_def]
          simp +decide [skipWs]
        | cons v vs =>
          obtain ⟨c, cs, hc, hws, hbr1, hbr2, hcomma⟩ := renderJson_head v
          have hlist : renderItems (v :: vs) ++ ']' :: rest =
              c :: (cs ++ ((if vs.isEmpty then [] else ',' :: renderItems vs) ++ ']' :: rest)) := by
            rw [renderItems_cons, hc]
            simp
          have hitems : renderJson (Json.arr (v :: vs)) = '[' :: renderItems (v :: vs) ++ [']'] := rfl
          have hshape : ('[' :: renderItems (v :: vs) ++ [']']) ++ rest =
              '[' :: (renderItems (v :: vs) ++ ']' :: rest) := by simp
          have hQlen : (renderItems (v :: vs)).length < fuel := by
            rw [hitems] at hlen
            simp at hlen
            omega
          rw [hitems, hshape, parseVal.eq_def, hlist]
          simp +decide [skipWs, hws, hbr1]
          rw [← hlist, ihQ (v :: vs) rest (by simp) hQlen]
      | obj fields =>
        cases fields with
        | nil =>
          rw [show renderJson (Json.obj []) = ['{', '}'] from rfl]
          rw [parseVal.eq_def]
          simp +decide [skipWs]
        | cons f fs =>
          obtain ⟨k, v⟩ := f
          have hlist : renderFields ((k, v) :: fs) ++ '}' :: rest =
              '"' :: (escapeString k.data ++
                ('"' :: ':' :: (renderJson v ++
                  ((if fs.isEmpty then [] else ',' :: renderFields fs) ++ '}' :: rest)))) := by
            rw [renderFields_cons]
            simp
          have hobj : renderJson (Json.obj ((k, v) :: fs)) =
              '{' :: renderFields ((k, v) :: fs) ++ ['}'] := rfl
          have hshape : ('{' :: renderFields ((k, v) :: fs) ++ ['}']) ++ rest =
              '{' :: (renderFields ((k, v) :: fs) ++ '}' :: rest) := by simp
          have hRlen : (renderFields ((k, v) :: fs)).length < fuel := by
            rw [hobj] at hlen
            simp at hlen
            omega
          rw [hobj, hshape, parseVal.eq_def, hlist]
          simp +decide [skipWs]
          rw [← hlist, ihR ((k, v) :: fs) rest (by simp) hRlen]
    · intro items rest hne hlen
      cases items with
      | nil => exact absurd rfl hne
      | cons v vs =>
        have hvpos : 0 < (renderJson v).length := by
          obtain ⟨c, cs, hc, -⟩ := renderJson_head v
          rw [hc]
          simp
        cases vs with
        | nil =>
          have hone : renderItems [v] ++ ']' :: rest = renderJson v ++ ']' :: rest := by
            rw [renderItems_cons]
            simp
          have hP := ihP v (']' :: rest)
            (by
              rw [renderItems_cons] at hlen
              simp at hlen
              omega)
            (fun m hm => headNotDigit_cons (by decide) rest)
          rw [parseItems_succ, hone, hP]
          simp +decide [skipWs]
        | cons w ws =>
          have hsh : renderItems (v :: w :: ws) ++ ']' :: rest =
              renderJson v ++ (',' :: (renderItems (w :: ws) ++ ']' :: rest)) := by
            rw [renderItems_cons]
            simp
          have hlens : (renderJson v).length + 1 + (renderItems (w :: ws)).length < fuel + 1 := by
            rw [renderItems_cons] at hlen
            simp [List.length_append] at hlen
            omega
          have hP := ihP v (',' :: (renderItems (w :: ws) ++ ']' :: rest))
            (by omega)
            (fun m hm => headNotDigit_cons (by decide) _)
          have hQ := ihQ (w :: ws) rest (by simp) (by omega)
          rw [parseItems_succ, hsh, hP]
          simp +decide [skipWs]
          rw [hQ]
    · intro fields rest hne hlen
      cases fields with
      | nil => exact absurd rfl hne
      | cons f fs =>
        obtain ⟨k, v⟩ := f
        have hvpos : 0 < (renderJson v).length := by
          obtain ⟨c, cs, hc, -⟩ := renderJson_head v
          rw [hc]
          simp
        cases fs with
        | nil =>
          have hsh : renderFields [(k, v)] ++ '}' :: rest =
              '"' :: (escapeString k.data ++ '"' :: ':' :: (renderJson v ++ '}' :: rest)) := by
            rw [renderFields_cons]
            simp
          have hP := ihP v ('}' :: rest)
            (by
              rw [renderFields_cons] at hlen
              simp [List.length_append] at hlen
              omega)
            (fun m hm => headNotDigit_cons (by decide) rest)
          rw [parseFields_succ, hsh]
          simp +decide [skipWs, parseStringBody_escape]
          rw [hP]
          simp +decide [skipWs, stringMk_data]
        | cons g gs =>
          have hsh : renderFields ((k, v) :: g :: gs) ++ '}' :: rest =
              '"' :: (escapeString k.data ++ '"' :: ':' ::
                (renderJson v ++ ',' :: (renderFields (g :: gs) ++ '}' :: rest))) := by
            rw [renderFields_cons]
            simp
          have hlens : (renderJson v).length + (renderFields (g :: gs)).length + 4 < fuel + 1 := by
            rw [renderFields_cons] at hlen
            simp [List.length_append] at hlen ⊢
            omega
          have hP := ihP v (',' :: (renderFields (g :: gs) ++ '}' :: rest))
            (by omega)
            (fun m hm => headNotDigit_cons (by decide) _)
          have hR := ihR (g :: gs) rest (by simp) (by omega)
          rw [parseFields_succ, hsh]
          simp +decide [skipWs, parseStringBody_escape]
          rw [hP]
          simp +decide [skipWs, stringMk_data]
          exact hR

theorem jparseChars_render (v : Json) : jparseChars (renderJson v) = some v := by
  unfold jparseChars
  have h := (parse_render_roundtrip ((renderJson v).length + 1)).1 v []
    (by omega) (fun m hm c hc => by simp at hc)
  rw [List.append_nil] at h
  rw [h]
  simp [skipWs]

theorem optMap_add_add (o : Option Nat) (a b : Nat) :
    (o.map (· + a)).map (· + b) = o.map (· + (a + b)) := by
  cases o with
  | none => rfl
  | some x => simp [Nat.add_assoc]

theorem scan_plain_append : ∀ xs : List Char, (∀ c ∈ xs, scanPlain c) →
    ∀ rest d, scanFrom '{' '}' (xs ++ rest) d false false =
      (scanFrom '{' '}' rest d false false).map (· + xs.length) := by
  intro xs
  induction xs with
  | nil =>
    intro _ rest d
    cases h : scanFrom '{' '}' rest d false false <;> simp [h]
  | cons c cs ih =>
    intro hplain rest d
    have hc := hplain c (by simp)
    rw [List.cons_append, scanFrom]
    simp only [if_neg hc.1, if_neg hc.2.1, if_neg hc.2.2, Bool.false_eq_true, if_false,
      ite_false]
    rw [ih (fun x hx => hplain x (by simp [hx])) rest d]
    rw [optMap_add_add]
    simp

theorem isDigit_scanPlain {c : Char} (h : c.isDigit = true) : scanPlain c := by
  have hf := isDigit_facts h
  exact ⟨hf.2.2.1, hf.1, hf.2.2.2.2.2.2.2.2.1⟩

theorem natDigitsAux_all (fuel : Nat) : ∀ (n : Nat) (acc : List Char),
    (∀ c ∈ acc, c.isDigit = true) → ∀ c ∈ natDigitsAux fuel n acc, c.isDigit = true := by
  induction fuel with
  | zero => intro n acc hacc; simpa [natDigitsAux] using hacc
  | succ fuel ih =>
    intro n acc hacc
    by_cases hn : n = 0
    · subst hn; simpa [natDigitsAux] using hacc
    · rw [natDigitsAux, if_neg hn]
      apply ih
      intro c hc
      rw [List.mem_cons] at hc
      rcases hc with hc | hc
      · rw [hc]
        exact (digitChar_isDigit (Nat.mod_lt n (by norm_num))).1
      · exact hacc c hc

theorem natDigits_all (n : Nat) : ∀ c ∈ natDigits n, c.isDigit = true := by
  by_cases hn : n = 0
  · subst hn
    intro c hc
    simp [natDigits] at hc
    rw [hc]
    decide
  · rw [natDigits, if_neg hn]
    exact natDigitsAux_all (n + 1) n [] (by simp)

theorem intChars_plain (n : Int) : ∀ c ∈ intChars n, scanPlain c := by
  intro c hc
  rw [intChars] at hc
  by_cases hneg : n < 0
  · rw [if_pos hneg, List.mem_cons] at hc
    rcases hc with hc | hc
    · rw [hc]
      exact ⟨by decide, by decide, by decide⟩
    · exact isDigit_scanPlain (natDigits_all n.natAbs c hc)
  · rw [if_neg hneg] at hc
    exact isDigit_scanPlain (natDigits_all n.toNat c hc)

theorem hexDigitChar_facts {m : Nat} (h : m < 16) :
    hexDigitChar m ≠ '"' ∧ hexDigitChar m ≠ '\\' := by
  interval_cases m <;> exact ⟨by decide, by decide⟩

theorem scan_inStr_esc (c : Char) (cs : List Char) (d : Int) :
    scanFrom '{' '}' (c :: cs) d true true =
      (scanFrom '{' '}' cs d true false).map (· + 1) := by
  rw [scanFrom]
  simp

theorem scan_inStr_backslash (cs : List Char) (d : Int) :
    scanFrom '{' '}' ('\\' :: cs) d true false =
      (scanFrom '{' '}' cs d true true).map (· + 1) := by
  rw [scanFrom]
  simp +decide

theorem scan_inStr_quote (cs : List Char) (d : Int) :
    scanFrom '{' '}' ('"' :: cs) d true false =
      (scanFrom '{' '}' cs d false false).map (· + 1) := by
  rw [scanFrom]
  simp +decide

theorem scan_inStr_other {c : Char} (h1 : c ≠ '\\') (h2 : c ≠ '"')
    (cs : List Char) (d : Int) :
    scanFrom '{' '}' (c :: cs) d true false =
      (scanFrom '{' '}' cs d true false).map (· + 1) := by
  rw [scanFrom]
  simp [h1, h2]

theorem scan_out_quote (cs : List Char) (d : Int) :
    scanFrom '{' '}' ('"' :: cs) d false false =
      (scanFrom '{' '}' cs d true false).map (· + 1) := by
  rw [scanFrom]
  simp +decide

theorem scan_out_open (cs : List Char) (d : Int) :
    scanFrom '{' '}' ('{' :: cs) d false false =
      (scanFrom '{' '}' cs (d + 1) false false).map (· + 1) := by
  rw [scanFrom]
  simp +decide

theorem scan_out_close_go (cs : List Char) (d : Int) (h : ¬ d - 1 = 0) :
    scanFrom '{' '}' ('}' :: cs) d false false =
      (scanFrom '{' '}' cs (d - 1) false false).map (· + 1) := by
  rw [scanFrom]
  simp +decide [h]

theorem scan_out_close_done (cs : List Char) (d : Int) (h : d - 1 = 0) :
    scanFrom '{' '}' ('}' :: cs) d false false = some 1 := by
  rw [scanFrom]
  simp +decide [h]

theorem scan_out_other {c : Char} (h : scanPlain c) (cs : List Char) (d : Int) :
    scanFrom '{' '}' (c :: cs) d false false =
      (scanFrom '{' '}' cs d false false).map (· + 1) := by
  rw [scanFrom]
  simp [h.1, h.2.1, h.2.2]

theorem scan_string_append : ∀ (s : List Char) (rest : List Char) (d : Int),
    scanFrom '{' '}' (escapeString s ++ '"' :: rest) d true false =
      (scanFrom '{' '}' rest d false false).map (· + ((escapeString s).length + 1)) := by
  intro s
  induction s with
  | nil =>
    intro rest d
    show scanFrom '{' '}' ('"' :: rest) d true false = _
    rw [scan_inStr_quote]
    simp [escapeString]
  | cons c cs ih =>
    intro rest d
    rw [escapeString_cons]
    by_cases hq : c = '"'
    · subst hq
      have he : escapeChar '"' = ['\\', '"'] := by decide
      rw [he]
      show scanFrom '{' '}' ('\\' :: '"' :: (escapeString cs ++ '"' :: rest)) d true false = _
      rw [scan_inStr_backslash, scan_inStr_esc, ih rest d, optMap_add_add, optMap_add_add]
      cases hscan : scanFrom '{' '}' rest d false false
      · rfl
      · simp [he]
    · by_cases hb : c = '\\'
      · subst hb
        have he : escapeChar '\\' = ['\\', '\\'] := by decide
        rw [he]
        show scanFrom '{' '}' ('\\' :: '\\' :: (escapeString cs ++ '"' :: rest)) d true false = _
        rw [scan_inStr_backslash, scan_inStr_esc, ih rest d, optMap_add_add, optMap_add_add]
        cases hscan : scanFrom '{' '}' rest d false false
        · rfl
        · simp [he]
      · by_cases hctl : c.toNat < 32
        · have h1 := hexDigitChar_facts (show c.toNat / 16 < 16 by omega)
          have h2 := hexDigitChar_facts (show c.toNat % 16 < 16 by omega)
          have he : escapeChar c = ['\\', 'u', '0', '0', hexDigitChar (c.toNat / 16),
              hexDigitChar (c.toNat % 16)] := by
            rw [escapeChar, if_neg hq, if_neg hb, if_pos hctl]
          rw [he]
          show scanFrom '{' '}' ('\\' :: 'u' :: '0' :: '0' :: hexDigitChar (c.toNat / 16) ::
            hexDigitChar (c.toNat % 16) :: (escapeString cs ++ '"' :: rest)) d true false = _
          rw [scan_inStr_backslash, scan_inStr_esc,
            scan_inStr_other (by decide) (by decide),
            scan_inStr_other (by decide) (by decide),
            scan_inStr_other h1.2 h1.1, scan_inStr_other h2.2 h2.1,
            ih rest d]
          rw [optMap_add_add, optMap_add_add, optMap_add_add, optMap_add_add,
            optMap_add_add, optMap_add_add]
          cases hscan : scanFrom '{' '}' rest d false false
          · rfl
          · simp [he]
        · have he : escapeChar c = [c] := by
            rw [escapeChar, if_neg hq, if_neg hb, if_neg hctl]
          rw [he]
          show scanFrom '{' '}' (c :: (escapeString cs ++ '"' :: rest)) d true false = _
          rw [scan_inStr_other hb hq, ih rest d, optMap_add_add]
          cases hscan : scanFrom '{' '}' rest d false false
          · rfl
          · simp [he]

theorem scan_neutral : ∀ bound : Nat,
    (∀ v : Json, (renderJson v).length ≤ bound → ∀ rest d, (1 : Int) ≤ d →
      scanFrom '{' '}' (renderJson v ++ rest) d false false =
        (scanFrom '{' '}' rest d false false).map (· + (renderJson v).length)) ∧
    (∀ items : List Json, (renderItems items).length < bound → ∀ rest d, (1 : Int) ≤ d →
      scanFrom '{' '}' (renderItems items ++ rest) d false false =
        (scanFrom '{' '}' rest d false false).map (· + (renderItems items).length)) ∧
    (∀ fields : List (String × Json), (renderFields fields).length < bound →
      ∀ rest d, (1 : Int) ≤ d →
      scanFrom '{' '}' (renderFields fields ++ rest) d false false =
        (scanFrom '{' '}' rest d false false).map (· + (renderFields fields).length)) := by
  intro bound
  induction bound with
  | zero =>
    refine ⟨?_, ?_, ?_⟩
    · intro v hlen
      obtain ⟨c, cs, hc, -⟩ := renderJson_head v
      rw [hc] at hlen
      simp at hlen
    · intro items hlen
      exact absurd hlen (Nat.not_lt_zero _)
    · intro fields hlen
      exact absurd hlen (Nat.not_lt_zero _)
  | succ bound ih =>
    obtain ⟨ihP, ihQ, ihR⟩ := ih
    refine ⟨?_, ?_, ?_⟩
    · intro v hlen rest d hd
      cases v with
      | null =>
        rw [show renderJson Json.null = ['n', 'u', 'l', 'l'] from rfl]
        exact scan_plain_append ['n', 'u', 'l', 'l'] (by decide) rest d
      | bool b =>
        cases b
        · rw [show renderJson (Json.bool false) = ['f', 'a', 'l', 's', 'e'] from rfl]
          exact scan_plain_append _ (by decide) rest d
        · rw [show renderJson (Json.bool true) = ['t', 'r', 'u', 'e'] from rfl]
          exact scan_plain_append _ (by decide) rest d
      | num n =>
        rw [show renderJson (Json.num n) = intChars n from rfl]
        exact scan_plain_append _ (intChars_plain n) rest d
      | str s =>
        rw [show renderJson (Json.str s) = '"' :: escapeString s.data ++ ['"'] from rfl]
        have hsh : ('"' :: escapeString s.data ++ ['"']) ++ rest =
            '"' :: (escapeString s.data ++ '"' :: rest) := by simp
        rw [hsh, scan_out_quote, scan_string_append]
        cases hscan : scanFrom '{' '}' rest d false false
        · rfl
        · simp
          omega
      | arr items =>
        rw [show renderJson (Json.arr items) = '[' :: renderItems items ++ [']'] from rfl]
          at hlen ⊢
        have hQ : (renderItems items).length < bound := by
          simp at hlen
          omega
        have hsh : ('[' :: renderItems items ++ [']']) ++ rest =
            '[' :: (renderItems items ++ ']' :: rest) := by simp
        rw [hsh, scan_out_other (⟨by decide, by decide, by decide⟩ : scanPlain '[')]
        rw [ihQ items hQ (']' :: rest) d hd]
        rw [scan_out_other (⟨by decide, by decide, by decide⟩ : scanPlain ']')]
        cases hscan : scanFrom '{' '}' rest d false false
        · rfl
        · simp
          omega
      | obj fields =>
        rw [show renderJson (Json.obj fields) = '{' :: renderFields fields ++ ['}'] from rfl]
          at hlen ⊢
        have hR : (renderFields fields).length < bound := by
          simp at hlen
          omega
        have hsh : ('{' :: renderFields fields ++ ['}']) ++ rest =
            '{' :: (renderFields fields ++ '}' :: rest) := by simp
        rw [hsh, scan_out_open]
        rw [ihR fields hR ('}' :: rest) (d + 1) (by omega)]
        rw [scan_out_close_go _ _ (by omega)]
        have hd1 : d + 1 - 1 = d := by ring
        rw [hd1]
        cases hscan : scanFrom '{' '}' rest d false false
        · rfl
        · simp
          omega
    · intro items hlen rest d hd
      cases items with
      | nil =>
        rw [show renderItems ([] : List Json) = [] from rfl]
        cases hscan : scanFrom '{' '}' rest d false false <;> simp [hscan]
      | cons v vs =>
        have hvpos : 0 < (renderJson v).length := by
          obtain ⟨c, cs, hc, -⟩ := renderJson_head v
          rw [hc]
          simp
        cases vs with
        | nil =>
          have hone : renderItems [v] = renderJson v := by
            rw [renderItems_cons]
            simp
          rw [hone] at hlen ⊢
          exact ihP v (by omega) rest d hd
        | cons w ws =>
          have hcons : renderItems (v :: w :: ws) =
              renderJson v ++ ',' :: renderItems (w :: ws) := by
            rw [renderItems_cons]
            simp
          rw [hcons] at hlen ⊢
          have hlens : (renderJson v).length + 1 + (renderItems (w :: ws)).length < bound + 1 := by
            simp [List.length_append] at hlen
            omega
          have hsh : (renderJson v ++ ',' :: renderItems (w :: ws)) ++ rest =
              renderJson v ++ (',' :: (renderItems (w :: ws) ++ rest)) := by simp
          rw [hsh, ihP v (by omega) _ d hd]
          rw [scan_out_other (⟨by decide, by decide, by decide⟩ : scanPlain ',')]
          rw [ihQ (w :: ws) (by omega) rest d hd]
          cases hscan : scanFrom '{' '}' rest d false false
          · rfl
          · simp
            omega
    · intro fields hlen rest d hd
      cases fields with
      | nil =>
        rw [show renderFields ([] : List (String × Json)) = [] from rfl]
        cases hscan : scanFrom '{' '}' rest d false false <;> simp [hscan]
      | cons f fs =>
        obtain ⟨k, v⟩ := f
        have hvpos : 0 < (renderJson v).length := by
          obtain ⟨c, cs, hc, -⟩ := renderJson_head v
          rw [hc]
          simp
        cases fs with
        | nil =>
          have hone : renderFields [(k, v)] =
              '"' :: escapeString k.data ++ ['"', ':'] ++ renderJson v := by
            rw [renderFields_cons]
            simp
          rw [hone] at hlen ⊢
          have hsh : ('"' :: escapeString k.data ++ ['"', ':'] ++ renderJson v) ++ rest =
              '"' :: (escapeString k.data ++ '"' :: (':' :: (renderJson v ++ rest))) := by
            simp
          have hlens : (escapeString k.data).length + (renderJson v).length + 3 < bound + 1 := by
            simp [List.length_append] at hlen
            omega
          rw [hsh, scan_out_quote, scan_string_append]
          rw [scan_out_other (⟨by decide, by decide, by decide⟩ : scanPlain ':')]
          rw [ihP v (by omega) rest d hd]
          cases hscan : scanFrom '{' '}' rest d false false
          · rfl
          · simp [List.length_append]
            omega
        | cons g gs =>
          have hcons : renderFields ((k, v) :: g :: gs) =
              '"' :: escapeString k.data ++ ['"', ':'] ++ renderJson v ++
                ',' :: renderFields (g :: gs) := by
            rw [renderFields_cons]
            simp
          rw [hcons] at hlen ⊢
          have hlens : (escapeString k.data).length + (renderJson v).length +
              (renderFields (g :: gs)).length + 4 < bound + 1 := by
            simp [List.length_append] at hlen
            omega
          have hsh : ('"' :: escapeString k.data ++ ['"', ':'] ++ renderJson v ++
              ',' :: renderFields (g :: gs)) ++ rest =
              '"' :: (escapeString k.data ++ '"' :: (':' :: (renderJson v ++
                (',' :: (renderFields (g :: gs) ++ rest))))) := by
            simp
          rw [hsh, scan_out_quote, scan_string_append]
          rw [scan_out_other (⟨by decide, by decide, by decide⟩ : scanPlain ':')]
          rw [ihP v (by omega) _ d hd]
          rw [scan_out_other (⟨by decide, by decide, by decide⟩ : scanPlain ',')]
          rw [ihR (g :: gs) (by omega) rest d hd]
          cases hscan : scanFrom '{' '}' rest d false false
          · rfl
          · simp [List.length_append]
            omega

theorem stripPfx_sub (pfx : List Char) : ∀ (p : List Char) (mc : Char) (tail : List Char),
    mc ∉ pfx →
    (stripPfx pfx (p ++ mc :: tail) = none ∨
     ∃ q, stripPfx pfx (p ++ mc :: tail) = some (q ++ mc :: tail) ∧ q.Sublist p) := by
  induction pfx with
  | nil =>
    intro p mc tail _
    exact Or.inr ⟨p, rfl, List.Sublist.refl p⟩
  | cons x xs ih =>
    intro p mc tail hmc
    cases p with
    | nil =>
      left
      show stripPfx (x :: xs) (mc :: tail) = none
      rw [stripPfx]
      rw [if_neg]
      intro he
      exact hmc (by simp [he])
    | cons d p2 =>
      rw [List.cons_append]
      rw [show stripPfx (x :: xs) (d :: (p2 ++ mc :: tail)) =
        if d = x then stripPfx xs (p2 ++ mc :: tail) else none from rfl]
      by_cases hd : d = x
      · rw [if_pos hd]
        rcases ih p2 mc tail (fun hin => hmc (by simp [hin])) with h | ⟨q, hq, hsub⟩
        · exact Or.inl h
        · exact Or.inr ⟨q, hq, hsub.trans (List.sublist_cons_self d p2)⟩
      · rw [if_neg hd]
        exact Or.inl rfl

theorem matchCI_sub (pfx : List Char) : ∀ (p : List Char) (mc : Char) (tail : List Char),
    toLowerCh mc ∉ pfx →
    (matchCI pfx (p ++ mc :: tail) = none ∨
     ∃ q, matchCI pfx (p ++ mc :: tail) = some (q ++ mc :: tail) ∧ q.Sublist p) := by
  induction pfx with
  | nil =>
    intro p mc tail _
    exact Or.inr ⟨p, rfl, List.Sublist.refl p⟩
  | cons x xs ih =>
    intro p mc tail hmc
    cases p with
    | nil =>
      left
      show matchCI (x :: xs) (mc :: tail) = none
      rw [matchCI]
      rw [if_neg]
      intro he
      exact hmc (by simp [he])
    | cons d p2 =>
      rw [List.cons_append]
      rw [show matchCI (x :: xs) (d :: (p2 ++ mc :: tail)) =
        if toLowerCh d = x then matchCI xs (p2 ++ mc :: tail) else none from rfl]
      by_cases hd : toLowerCh d = x
      · rw [if_pos hd]
        rcases ih p2 mc tail (fun hin => hmc (by simp [hin])) with h | ⟨q, hq, hsub⟩
        · exact Or.inl h
        · exact Or.inr ⟨q, hq, hsub.trans (List.sublist_cons_self d p2)⟩
      · rw [if_neg hd]
        exact Or.inl rfl

theorem dropWhile_protect (p : Char → Bool) : ∀ (pre : List Char) (mc : Char) (tail : List Char),
    p mc = false →
    (pre ++ mc :: tail).dropWhile p = pre.dropWhile p ++ mc :: tail := by
  intro pre mc tail hmc
  induction pre with
  | nil => simp [List.dropWhile, hmc]
  | cons d pre2 ih =>
    by_cases hd : p d = true
    · simp [List.dropWhile, hd, ih]
    · simp at hd
      simp [List.dropWhile, hd]

theorem stripFenceFront_none {cs : List Char}
    (h : stripPfx ['`', '`', '`'] cs = none) : stripFenceFront cs = cs := by
  unfold stripFenceFront
  rw [h]

theorem stripFenceFront_some {cs rest : List Char}
    (h : stripPfx ['`', '`', '`'] cs = some rest) :
    stripFenceFront cs =
      ((matchCI ['j', 's', 'o', 'n'] rest).getD rest).dropWhile isWsChar := by
  unfold stripFenceFront
  rw [h]
  change ((match matchCI ['j', 's', 'o', 'n'] rest with
    | some r => r
    | none => rest).dropWhile isWsChar) = _
  cases hm : matchCI ['j', 's', 'o', 'n'] rest <;> rfl

theorem stripFenceBack_none {cs : List Char}
    (h : stripPfx ['`', '`', '`'] cs.reverse = none) : stripFenceBack cs = cs := by
  unfold stripFenceBack
  rw [h]

theorem stripFenceBack_some {cs rest : List Char}
    (h : stripPfx ['`', '`', '`'] cs.reverse = some rest) :
    stripFenceBack cs = (rest.dropWhile isWsChar).reverse := by
  unfold stripFenceBack
  rw [h]

theorem stripFenceFront_shape (p tail : List Char) :
    ∃ q, stripFenceFront (p ++ '{' :: tail) = q ++ '{' :: tail ∧ q.Sublist p := by
  rcases stripPfx_sub ['`', '`', '`'] p '{' tail (by decide) with hnone | ⟨q1, hq1, hsub1⟩
  · rw [stripFenceFront_none hnone]
    exact ⟨p, rfl, List.Sublist.refl p⟩
  · rw [stripFenceFront_some hq1]
    rcases matchCI_sub ['j', 's', 'o', 'n'] q1 '{' tail (by decide) with hnone2 | ⟨q2, hq2, hsub2⟩
    · rw [hnone2, Option.getD_none]
      rw [dropWhile_protect isWsChar q1 '{' tail (by decide)]
      exact ⟨q1.dropWhile isWsChar, rfl, (List.dropWhile_sublist _).trans hsub1⟩
    · rw [hq2, Option.getD_some]
      rw [dropWhile_protect isWsChar q2 '{' tail (by decide)]
      exact ⟨q2.dropWhile isWsChar, rfl,
        ((List.dropWhile_sublist _).trans hsub2).trans hsub1⟩

theorem stripFenceBack_shape (pre p2 : List Char) :
    ∃ r, stripFenceBack (pre ++ '}' :: p2) = pre ++ '}' :: r := by
  have hrev : (pre ++ '}' :: p2).reverse = p2.reverse ++ '}' :: pre.reverse := by
    simp
  rcases stripPfx_sub ['`', '`', '`'] p2.reverse '}' pre.reverse (by decide)
    with hnone | ⟨q1, hq1, hsub1⟩
  · rw [stripFenceBack_none (by rw [hrev]; exact hnone)]
    exact ⟨p2, rfl⟩
  · rw [stripFenceBack_some (by rw [hrev]; exact hq1)]
    rw [dropWhile_protect isWsChar q1 '}' pre.reverse (by decide)]
    refine ⟨(q1.dropWhile isWsChar).reverse, ?_⟩
    simp

theorem trimChars_shape (p mid p2 : List Char) :
    ∃ q r, trimChars (p ++ ('{' :: mid ++ ['}']) ++ p2) =
      q ++ ('{' :: mid ++ ['}']) ++ r ∧ q.Sublist p := by
  unfold trimChars
  have hsh : p ++ ('{' :: mid ++ ['}']) ++ p2 = p ++ '{' :: (mid ++ '}' :: p2) := by simp
  rw [hsh, dropWhile_protect isWsChar p '{' (mid ++ '}' :: p2) (by decide)]
  have hsh2 : p.dropWhile isWsChar ++ '{' :: (mid ++ '}' :: p2) =
      ((p.dropWhile isWsChar ++ '{' :: mid) ++ ['}']) ++ p2 := by simp
  rw [hsh2]
  have hrev : (((p.dropWhile isWsChar ++ '{' :: mid) ++ ['}']) ++ p2).reverse =
      p2.reverse ++ '}' :: (p.dropWhile isWsChar ++ '{' :: mid).reverse := by
    simp
  rw [hrev, dropWhile_protect isWsChar p2.reverse '}'
    (p.dropWhile isWsChar ++ '{' :: mid).reverse (by decide)]
  refine ⟨p.dropWhile isWsChar, (p2.reverse.dropWhile isWsChar).reverse, ?_,
    List.dropWhile_sublist _⟩
  simp

theorem stripCodeFences_shape (p mid p2 : List Char) :
    ∃ q r, stripCodeFences (p ++ ('{' :: mid ++ ['}']) ++ p2) =
      q ++ ('{' :: mid ++ ['}']) ++ r ∧ q.Sublist p := by
  unfold stripCodeFences
  have hsh : p ++ ('{' :: mid ++ ['}']) ++ p2 = p ++ '{' :: (mid ++ '}' :: p2) := by simp
  rw [hsh]
  obtain ⟨q1, hq1, hsub1⟩ := stripFenceFront_shape p (mid ++ '}' :: p2)
  rw [hq1]
  have hsh2 : q1 ++ '{' :: (mid ++ '}' :: p2) = (q1 ++ '{' :: mid) ++ '}' :: p2 := by simp
  rw [hsh2]
  obtain ⟨r1, hr1⟩ := stripFenceBack_shape (q1 ++ '{' :: mid) p2
  rw [hr1]
  refine ⟨q1, r1, ?_, hsub1⟩
  simp

theorem normalized_shape (p mid p2 : List Char) (h : braceFree p) :
    ∃ q r, trimChars (stripCodeFences (p ++ ('{' :: mid ++ ['}']) ++ p2)) =
      q ++ ('{' :: mid ++ ['}']) ++ r ∧ braceFree q := by
  obtain ⟨q1, r1, heq1, hsub1⟩ := stripCodeFences_shape p mid p2
  rw [heq1]
  obtain ⟨q2, r2, heq2, hsub2⟩ := trimChars_shape q1 mid r1
  rw [heq2]
  refine ⟨q2, r2, rfl, ?_, ?_⟩
  · intro hin
    exact h.1 (hsub1.subset (hsub2.subset hin))
  · intro hin
    exact h.2 (hsub1.subset (hsub2.subset hin))

theorem indexOfChar_cons_self (c : Char) (cs : List Char) :
    indexOfChar c (c :: cs) = some 0 := by
  simp [indexOfChar]

theorem indexOfChar_append_of_not_mem (c : Char) (xs : List Char) (h : c ∉ xs) :
    ∀ ys, indexOfChar c (xs ++ ys) = (indexOfChar c ys).map (· + xs.length) := by
  induction xs with
  | nil =>
    intro ys
    cases hy : indexOfChar c ys <;> simp [hy]
  | cons d ds ih =>
    intro ys
    have hd : d ≠ c := by
      intro he
      exact h (by simp [he])
    rw [List.cons_append, indexOfChar, if_neg hd,
      ih (fun hin => h (by simp [hin])) ys]
    cases hy : indexOfChar c ys <;> simp [hy]
    omega

theorem scan_render_obj (fields : List (String × Json)) (rest : List Char) :
    scanFrom '{' '}' (renderJson (Json.obj fields) ++ rest) 0 false false =
      some (renderJson (Json.obj fields)).length := by
  rw [show renderJson (Json.obj fields) = '{' :: renderFields fields ++ ['}'] from rfl]
  have hsh : ('{' :: renderFields fields ++ ['}']) ++ rest =
      '{' :: (renderFields fields ++ '}' :: rest) := by simp
  rw [hsh, scan_out_open]
  rw [(scan_neutral ((renderFields fields).length + 1)).2.2 fields (by omega)
    ('}' :: rest) (0 + 1) (by omega)]
  rw [scan_out_close_done _ _ (by omega)]
  simp
  omega

theorem extract_of_sel {cs : List Char} {start : Nat} {oC cC : Char}
    (hsel : selectStart (indexOfChar '{' cs) (indexOfChar '[' cs) = some (start, oC, cC))
    {count : Nat} (hscan : scanFrom oC cC (cs.drop start) 0 false false = some count) :
    extractBalancedJsonValue cs = some ((cs.drop start).take count) := by
  unfold extractBalancedJsonValue
  rw [hsel]
  show (match scanFrom oC cC (cs.drop start) 0 false false with
    | some count => some ((cs.drop start).take count)
    | none => none) = _
  rw [hscan]

theorem extract_render_obj (q p2 : List Char) (fields : List (String × Json))
    (hq : braceFree q) :
    extractBalancedJsonValue (q ++ renderJson (Json.obj fields) ++ p2) =
      some (renderJson (Json.obj fields)) := by
  have hobj : renderJson (Json.obj fields) = '{' :: renderFields fields ++ ['}'] := rfl
  have hshape : q ++ renderJson (Json.obj fields) ++ p2 =
      q ++ '{' :: (renderFields fields ++ '}' :: p2) := by
    rw [hobj]
    simp
  have hbrace : indexOfChar '{' (q ++ renderJson (Json.obj fields) ++ p2) =
      some q.length := by
    rw [hshape, indexOfChar_append_of_not_mem '{' q hq.1, indexOfChar_cons_self]
    simp
  have hdrop : (q ++ renderJson (Json.obj fields) ++ p2).drop q.length =
      renderJson (Json.obj fields) ++ p2 := by
    rw [List.append_assoc, List.drop_left]
  have hscan : scanFrom '{' '}'
      ((q ++ renderJson (Json.obj fields) ++ p2).drop q.length) 0 false false =
      some (renderJson (Json.obj fields)).length := by
    rw [hdrop]
    exact scan_render_obj fields p2
  have hsel : selectStart (indexOfChar '{' (q ++ renderJson (Json.obj fields) ++ p2))
      (indexOfChar '[' (q ++ renderJson (Json.obj fields) ++ p2)) =
      some (q.length, '{', '}') := by
    rw [hbrace]
    rcases hbk : indexOfChar '[' (q ++ renderJson (Json.obj fields) ++ p2) with _ | j
    · rfl
    · have hj : q.length < j := by
        rw [hshape, indexOfChar_append_of_not_mem '[' q hq.2] at hbk
        rcases hk2 : indexOfChar '[' ('{' :: (renderFields fields ++ '}' :: p2)) with _ | i
        · rw [hk2] at hbk
          simp at hbk
        · rw [hk2] at hbk
          simp at hbk
          rw [indexOfChar, if_neg (by decide)] at hk2
          rcases hk3 : indexOfChar '[' (renderFields fields ++ '}' :: p2) with _ | i2
          · rw [hk3] at hk2
            simp at hk2
          · rw [hk3] at hk2
            simp at hk2
            omega
      show selectStart (some q.length) (some j) = some (q.length, '{', '}')
      rw [selectStart, if_pos hj]
  rw [extract_of_sel hsel hscan, hdrop]
  exact congrArg some (List.take_left _ _)

theorem parseJsonLenient_of_parse {rep : List Char → Option (List Char)}
    {cs : List Char} {v : Json} (h : jparseChars cs = some v) :
    parseJsonLenient rep cs = some v := by
  unfold parseJsonLenient
  rw [h]

theorem parseJsonObject_of_extract {rep : List Char → Option (List Char)}
    {raw jsonText : List Char}
    (hex : extractBalancedJsonValue (trimChars (stripCodeFences raw)) = some jsonText)
    {v : Json} (hlen : parseJsonLenient rep jsonText = some v)
    (hobj : isObjLike v = true) :
    parseJsonObject rep raw = .ok v := by
  unfold parseJsonObject
  rw [hex]
  show (match parseJsonLenient rep jsonText with
    | none => Except.error RespErr.lenientFailed
    | some parsed =>
      if isObjLike parsed = true then Except.ok parsed
      else
        match parsed with
        | Json.arr items =>
          match items.find? isObjLike with
          | some o => Except.ok o
          | none => Except.error (RespErr.notObject (jsonText.take 240))
        | _ => Except.error (RespErr.notObject (jsonText.take 240))) = Except.ok v
  rw [hlen]
  show (if isObjLike v = true then Except.ok v
    else
      match v with
      | Json.arr items =>
        match items.find? isObjLike with
        | some o => Except.ok o
        | none => Except.error (RespErr.notObject (jsonText.take 240))
      | _ => Except.error (RespErr.notObject (jsonText.take 240))) = Except.ok v
  rw [if_pos hobj]

/-- **C6 (amended).** The claim as stated is false (see
`parseJsonObject_prose_with_stray_brace`): prose before the object that itself
contains a `{` or `[` derails the first-delimiter heuristic.  Amended claim:
for every text input consisting of a single well-formed JSON object (rendered
with integer numbers), preceded by arbitrary prose containing no `{` or `[`
and followed by arbitrary prose, `parseJsonObject` returns exactly that
object — including when braces or brackets appear inside the object's string
literals or in the trailing prose — by locating the first opening delimiter,
scanning with in-string and escape tracking until nesting depth returns to
zero, and strictly parsing the minimal balanced span.  The result holds for
every behaviour `rep` of the external `jsonrepair` fallback. -/
theorem parseJsonObject_returns_embedded_object
    (rep : List Char → Option (List Char)) (p1 p2 : List Char)
    (fields : List (String × Json)) (h1 : braceFree p1) :
    parseJsonObject rep (p1 ++ renderJson (Json.obj fields) ++ p2) =
      .ok (Json.obj fields) := by
  have hobj : renderJson (Json.obj fields) = '{' :: renderFields fields ++ ['}'] := rfl
  obtain ⟨q, r, heq, hbf⟩ := normalized_shape p1 (renderFields fields) p2 h1
  have heq2 : trimChars (stripCodeFences (p1 ++ renderJson (Json.obj fields) ++ p2)) =
      q ++ renderJson (Json.obj fields) ++ r := by
    rw [hobj]
    exact heq
  have hex : extractBalancedJsonValue
      (trimChars (stripCodeFences (p1 ++ renderJson (Json.obj fields) ++ p2))) =
      some (renderJson (Json.obj fields)) := by
    rw [heq2]
    exact extract_render_obj q r fields hbf
  exact parseJsonObject_of_extract hex
    (parseJsonLenient_of_parse (jparseChars_render (Json.obj fields))) rfl


theorem fsWrite_same (fs : FS) (p : List String) (v : Option String) :
    fsWrite fs p v p = v := by
  simp [fsWrite]

theorem fsWrite_other (fs : FS) (p q : List String) (v : Option String)
    (h : q ≠ p) : fsWrite fs p v q = fs q := by
  simp [fsWrite, h]

theorem resolveInsideRepo_ok_prefix {root : List String} {rel : String}
    {p : List String} (h : resolveInsideRepo root rel = .ok p) :
    root.isPrefixOf p = true ∧ p = resolvePath root rel := by
  unfold resolveInsideRepo at h
  by_cases hp : root.isPrefixOf (resolvePath root rel) = true
  · simp only [hp, if_true] at h
    cases h
    exact ⟨hp, rfl⟩
  · simp only [Bool.not_eq_true] at hp
    simp [hp] at h

/-- **C10.** Every repository-relative read and write of the core goes through
`resolveInsideRepo`: for any relative path whose resolution escapes the
repository root, `readFileIfExists` and `writeFile` fail with the
`Invalid file path outside repo` error and no filesystem state is produced or
consulted; and whenever `writeFile` does succeed, the single path it changes
lies inside the repository root.  In particular no candidate edit path
(e.g. one containing `..`) can create, modify, or read a file outside the
repository. -/
theorem writeFile_readFileIfExists_confined (fs : FS) (root : List String)
    (rel content : String) :
    (root.isPrefixOf (resolvePath root rel) = false →
       readFileIfExists fs root rel = .error ("Invalid file path outside repo: " ++ rel) ∧
       writeFile fs root rel content = .error ("Invalid file path outside repo: " ++ rel)) ∧
    (∀ fs', writeFile fs root rel content = .ok fs' →
       root.isPrefixOf (resolvePath root rel) = true ∧
       fs' = fsWrite fs (resolvePath root rel) (some content) ∧
       (∀ q, root.isPrefixOf q = false → fs' q = fs q)) ∧
    (∀ c, readFileIfExists fs root rel = .ok c →
       root.isPrefixOf (resolvePath root rel) = true ∧ c = fs (resolvePath root rel)) := by
  refine ⟨?_, ?_, ?_⟩
  · intro h
    have h' : ¬ root.isPrefixOf (resolvePath root rel) = true := by simp [h]
    constructor
    · unfold readFileIfExists resolveInsideRepo
      simp [h']
    · unfold writeFile resolveInsideRepo
      simp [h']
  · intro fs' hw
    unfold writeFile at hw
    by_cases hp : root.isPrefixOf (resolvePath root rel) = true
    · refine ⟨hp, ?_, ?_⟩
      · unfold resolveInsideRepo at hw
        simp only [hp, if_true] at hw
        cases hw
        rfl
      · intro q hq
        unfold resolveInsideRepo at hw
        simp only [hp, if_true] at hw
        cases hw
        have hqp : q ≠ resolvePath root rel := by
          intro he
          rw [he] at hq
          rw [hq] at hp
          exact Bool.noConfusion hp
        exact fsWrite_other fs (resolvePath root rel) q (some content) hqp
    · simp only [Bool.not_eq_true] at hp
      unfold resolveInsideRepo at hw
      simp [hp] at hw
  · intro c hr
    unfold readFileIfExists at hr
    by_cases hp : root.isPrefixOf (resolvePath root rel) = true
    · refine ⟨hp, ?_⟩
      unfold resolveInsideRepo at hr
      simp only [hp, if_true] at hr
      cases hr
      rfl
    · simp only [Bool.not_eq_true] at hp
      unfold resolveInsideRepo at hr
      simp [hp] at hr

/-- Witness for C10 at the concrete escaping edit path `"../escape.ts"`
against the root `/repo`: both operations fail with the exact error, and the
resolution indeed escapes. -/
theorem writeFile_readFileIfExists_confined_witness :
    ["repo"].isPrefixOf (resolvePath ["repo"] "../escape.ts") = false ∧
    readFileIfExists (fun _ => none) ["repo"] "../escape.ts" =
      .error ("Invalid file path outside repo: " ++ "../escape.ts") ∧
    writeFile (fun _ => none) ["repo"] "../escape.ts" "payload" =
      .error ("Invalid file path outside repo: " ++ "../escape.ts") := by
  have h :=
    (writeFile_readFileIfExists_confined (fun _ => none) ["repo"] "../escape.ts" "payload").1
      (by decide)
  exact ⟨by decide, h.1, h.2⟩

/-- **C4.** The unit-test gate passes an edit set iff the set is non-empty and
(no path in it is source-like by extension after excluding test-like paths, or
the detected language mix does not require tests, or some path in the set
matches the test-path heuristic); in particular a non-empty set touching only
non-source paths always passes, and a set with one source file and no test
file fails when the profile requires tests and passes once a matching test
path is added. -/
theorem passesUnitTestGate_spec (edits : List DraftEdit) (repo : RepoSnapshot) :
    (passesUnitTestGate edits repo = true ↔
      edits ≠ [] ∧
        ((∀ e ∈ edits, isSourceLikePath e.path = false) ∨
         requiresTests repo = false ∨
         (∃ e ∈ edits, isTestLikePath e.path = true))) ∧
    (edits ≠ [] → (∀ e ∈ edits, isSourceLikePath e.path = false) →
       passesUnitTestGate edits repo = true) ∧
    (∀ src test cs rs ct rt,
       isSourceLikePath src = true → isTestLikePath test = true →
       requiresTests repo = true →
       passesUnitTestGate [⟨src, cs, rs⟩] repo = false ∧
       passesUnitTestGate [⟨src, cs, rs⟩, ⟨test, ct, rt⟩] repo = true) := by
  have hmain : passesUnitTestGate edits repo = true ↔
      edits ≠ [] ∧
        ((∀ e ∈ edits, isSourceLikePath e.path = false) ∨
         requiresTests repo = false ∨
         (∃ e ∈ edits, isTestLikePath e.path = true)) := by
    unfold passesUnitTestGate
    by_cases he : edits.length = 0
    · have : edits = [] := List.length_eq_zero.mp he
      subst this
      simp
    · have hne : edits ≠ [] := by
        intro h
        subst h
        exact he rfl
      rw [if_neg he]
      by_cases hf : (edits.filter (fun e => isSourceLikePath e.path)).length = 0
      · have hall : ∀ e ∈ edits, isSourceLikePath e.path = false := by
          intro e hin
          have := List.filter_eq_nil_iff.mp (List.length_eq_zero.mp hf) e hin
          simpa using this
        rw [if_pos hf]
        exact iff_of_true rfl ⟨hne, Or.inl hall⟩
      · have hnall : ¬ (∀ e ∈ edits, isSourceLikePath e.path = false) := by
          intro hall
          apply hf
          apply List.length_eq_zero.mpr
          apply List.filter_eq_nil_iff.mpr
          intro e hin
          simp [hall e hin]
        by_cases hr : requiresTests repo = false
        · rw [if_neg hf, if_pos (by simp [hr])]
          exact iff_of_true rfl ⟨hne, Or.inr (Or.inl hr)⟩
        · have hr' : requiresTests repo = true := by
            cases h : requiresTests repo
            · exact absurd h hr
            · rfl
          rw [if_neg hf, if_neg (by simp [hr'])]
          rw [List.any_eq_true]
          constructor
          · intro hex
            exact ⟨hne, Or.inr (Or.inr (by simpa using hex))⟩
          · rintro ⟨-, h | h | h⟩
            · exact absurd h hnall
            · rw [hr'] at h
              exact Bool.noConfusion h
            · simpa using h
  refine ⟨hmain, ?_, ?_⟩
  · intro hne hall
    exact hmain.mpr ⟨hne, Or.inl hall⟩
  · intro src test cs rs ct rt hsrc htest hreq
    have hsrcNotTest : isTestLikePath src = false := by
      unfold isSourceLikePath at hsrc
      have := (Bool.and_eq_true _ _).mp hsrc
      simpa using this.2
    constructor
    · simp [passesUnitTestGate, List.filter, hsrc, hsrcNotTest, hreq]
    · simp [passesUnitTestGate, List.filter, hsrc, hsrcNotTest, htest, hreq]

/-- Witness for C4, instantiating end-to-end scenario A of the specification:
a TypeScript repository profile, the lone source edit `src/a.ts` fails the
gate, and adding `src/a.test.ts` makes it pass. -/
theorem passesUnitTestGate_spec_witness :
    passesUnitTestGate [⟨"src/a.ts", "body", "impl"⟩]
      ⟨10, [], (fun s => if s = "TypeScript" then 3 else 0), [], [], []⟩ = false ∧
    passesUnitTestGate [⟨"src/a.ts", "body", "impl"⟩, ⟨"src/a.test.ts", "t", "tests"⟩]
      ⟨10, [], (fun s => if s = "TypeScript" then 3 else 0), [], [], []⟩ = true := by
  exact
    (passesUnitTestGate_spec [⟨"src/a.ts", "body", "impl"⟩]
        ⟨10, [], (fun s => if s = "TypeScript" then 3 else 0), [], [], []⟩).2.2
      "src/a.ts" "src/a.test.ts" "body" "impl" "t" "tests"
      (by decide) (by decide) (by decide)

/-- Counterexample to C6 as stated: the input
`Take { care, {"a":1} end` contains the single well-formed JSON object
`{"a":1}` surrounded by prose, but the prose contains a stray `{`, so the
scanner starts at the stray brace, never returns to depth zero, and
`parseJsonObject` fails with its `did not contain JSON object` error instead
of returning the object (independently of the `jsonrepair` fallback, which is
never consulted because extraction already failed). -/
theorem parseJsonObject_prose_with_stray_brace :
    ("Take \x7b care, \x7b\"a\":1\x7d end".data =
      "Take \x7b care, ".data ++ renderJson (Json.obj [("a", Json.num 1)]) ++ " end".data) ∧
    parseJsonObject (fun _ => none) "Take \x7b care, \x7b\"a\":1\x7d end".data =
      .error (RespErr.noJson "Take \x7b care, \x7b\"a\":1\x7d end".data) := by
  exact ⟨by decide, by rfl⟩

/-- Witness for C6 (amended) at a concrete input: prose, the object
` {"a":1}`, and trailing prose. -/
theorem parseJsonObject_returns_embedded_object_witness :
    parseJsonObject (fun _ => none)
      ("Answer: ".data ++ renderJson (Json.obj [("a", Json.num 1)]) ++ " thanks".data) =
      .ok (Json.obj [("a", Json.num 1)]) :=
  parseJsonObject_returns_embedded_object _ _ _ _ (by decide)

/-! ### The lcov coverage parser (`parseLcovFile`) -/

theorem isPrefixOf_append_self (xs ys : List Char) : xs.isPrefixOf (xs ++ ys) = true := by
  induction xs with
  | nil => simp [List.isPrefixOf]
  | cons a as ih => simp [List.isPrefixOf, ih]

theorem splitOnChar_of_not_mem {c : Char} :
    ∀ cs : List Char, c ∉ cs → splitOnChar c cs = [cs] := by
  intro cs
  induction cs with
  | nil => intro _; rfl
  | cons d ds ih =>
    intro h
    have h1 : c ≠ d := fun he => h (List.mem_cons.mpr (Or.inl he))
    have hds : c ∉ ds := fun hm => h (List.mem_cons.mpr (Or.inr hm))
    have hd : ¬ d = c := fun he => h1 he.symm
    simp [splitOnChar, hd, ih hds]

theorem splitOnChar_append_sep {c : Char} :
    ∀ xs ys : List Char, c ∉ xs →
      splitOnChar c (xs ++ c :: ys) = xs :: splitOnChar c ys := by
  intro xs
  induction xs with
  | nil =>
    intro ys _
    simp [splitOnChar]
  | cons d ds ih =>
    intro ys h
    have h1 : c ≠ d := fun he => h (List.mem_cons.mpr (Or.inl he))
    have hds : c ∉ ds := fun hm => h (List.mem_cons.mpr (Or.inr hm))
    have hd : ¬ d = c := fun he => h1 he.symm
    have hrec := ih ys hds
    simp [splitOnChar, hd, hrec]

theorem splitOnChar_unlines :
    ∀ (ls : List (List Char)) (l : List Char), '\n' ∉ l → (∀ m ∈ ls, '\n' ∉ m) →
      splitOnChar '\n' (unlines (l :: ls)) = l :: ls := by
  intro ls
  induction ls with
  | nil =>
    intro l hl _
    exact splitOnChar_of_not_mem l hl
  | cons m ms ih =>
    intro l hl hms
    have hstep : unlines (l :: m :: ms) = l ++ '\n' :: unlines (m :: ms) := rfl
    rw [hstep, splitOnChar_append_sep _ _ hl,
        ih m (hms m (by simp)) (fun x hx => hms x (by simp [hx]))]

theorem parseIntJS_natDigits (n : Nat) : parseIntJS (natDigits n) = some (n : Int) := by
  obtain ⟨c, cs, hcons, hdig⟩ := natDigits_head n
  have hws : isWsChar c = false := (isDigit_facts hdig).2.2.2.2.2.2.2.2.2.2.2
  have hminus : ¬ c = '-' := (isDigit_facts hdig).2.2.2.2.2.2.1
  have hplus : ¬ c = '+' := fun he => absurd (he ▸ hdig) (by decide)
  have htd : takeDigits (natDigits n ++ ([] : List Char)) 0 = (n, []) :=
    takeDigits_natDigits n (fun x hx => by simp at hx)
  rw [List.append_nil, hcons] at htd
  rw [hcons]
  simp only [parseIntJS, List.dropWhile_cons, hws, Bool.false_eq_true, if_false,
    if_neg hminus, if_neg hplus, hdig, if_true, htd]

theorem newline_not_mem_natDigits (n : Nat) : '\n' ∉ natDigits n := by
  intro hmem
  exact absurd (natDigits_all n '\n' hmem) (by decide)

theorem newline_not_mem_daLine (ln hits : Nat) : '\n' ∉ daLine ln hits := by
  intro hmem
  have heq : daLine ln hits =
      'D' :: ('A' :: (':' :: (natDigits ln ++ ',' :: natDigits hits))) := rfl
  rw [heq] at hmem
  simp only [List.mem_cons, List.mem_append] at hmem
  rcases hmem with h | h | h | h | h | h
  · exact absurd h (by decide)
  · exact absurd h (by decide)
  · exact absurd h (by decide)
  · exact newline_not_mem_natDigits ln h
  · exact absurd h (by decide)
  · exact newline_not_mem_natDigits hits h

theorem sf_prefix_false_d (tail : List Char) :
    "SF:".data.isPrefixOf ('D' :: tail) = false := by
  show (['S', 'F', ':'] : List Char).isPrefixOf ('D' :: tail) = false
  simp +decide [List.isPrefixOf]

theorem parseLcovLines_da (root : List String) (ln hits : Nat)
    (rest : List (List Char)) (cur : Option String) (cov tot : Nat)
    (m : List (String × CoverageAggregate)) :
    parseLcovLines root (daLine ln hits :: rest) cur cov tot m =
      parseLcovLines root rest cur (if 0 < hits then cov + 1 else cov) (tot + 1) m := by
  have hshape : daLine ln hits =
      'D' :: ('A' :: (':' :: (natDigits ln ++ ',' :: natDigits hits))) := rfl
  have hsf : "SF:".data.isPrefixOf (daLine ln hits) = false := by
    rw [hshape]; exact sf_prefix_false_d _
  have hda : "DA:".data.isPrefixOf (daLine ln hits) = true := by
    simp only [daLine]; exact isPrefixOf_append_self _ _
  have hdrop : (daLine ln hits).drop 3 = natDigits ln ++ ',' :: natDigits hits := rfl
  have hc1 : ',' ∉ natDigits ln :=
    fun hm => absurd (natDigits_all ln ',' hm) (by decide)
  have hc2 : ',' ∉ natDigits hits :=
    fun hm => absurd (natDigits_all hits ',' hm) (by decide)
  simp only [parseLcovLines, hsf, Bool.false_eq_true, if_false, hda, if_true, hdrop,
    splitOnChar_append_sep _ _ hc1, splitOnChar_of_not_mem _ hc2,
    List.getD_cons_succ, List.getD_cons_zero, parseIntJS_natDigits, Int.natCast_pos]

theorem parseLcovLines_da_loop (root : List String) :
    ∀ (pairs : List (Nat × Nat)) (tail : List (List Char)) (cur : Option String)
      (cov tot : Nat) (m : List (String × CoverageAggregate)),
      parseLcovLines root (pairs.map (fun pr => daLine pr.1 pr.2) ++ tail) cur cov tot m =
        parseLcovLines root tail cur
          (cov + (pairs.filter (fun pr => 0 < pr.2)).length) (tot + pairs.length) m := by
  intro pairs
  induction pairs with
  | nil => intro tail cur cov tot m; simp
  | cons pr prs ih =>
    intro tail cur cov tot m
    rw [List.map_cons, List.cons_append, parseLcovLines_da, ih]
    have hA : (if 0 < pr.2 then cov + 1 else cov) + (prs.filter (fun q => 0 < q.2)).length =
        cov + ((pr :: prs).filter (fun q => 0 < q.2)).length := by
      rw [List.filter_cons]
      by_cases h : 0 < pr.2 <;> · simp [h]; try omega
    have hB : tot + 1 + prs.length = tot + (pr :: prs).length := by
      simp [List.length_cons]; omega
    rw [hA, hB]

theorem parseLcov_record (root : List String) (f : String) (pairs : List (Nat × Nat))
    (hf : '\n' ∉ f.data) (hkey : ¬ trimChars f.data = []) :
    parseLcovContent root (String.mk (lcovRecord f pairs)) =
      [(normalizeLcovPath root (String.mk (trimChars f.data)),
        ⟨(pairs.filter (fun pr => 0 < pr.2)).length, pairs.length⟩)] := by
  have hlines : splitOnChar '\n' (lcovRecord f pairs) =
      ("SF:".data ++ f.data) ::
        (pairs.map (fun pr => daLine pr.1 pr.2) ++ ["end_of_record".data]) := by
    simp only [lcovRecord]
    apply splitOnChar_unlines
    · intro hm
      rcases List.mem_append.mp hm with h | h
      · exact absurd h (by decide)
      · exact hf h
    · intro mline hmem
      rcases List.mem_append.mp hmem with h | h
      · rcases List.mem_map.mp h with ⟨pr, _, hpr⟩
        exact fun hm => newline_not_mem_daLine pr.1 pr.2 (hpr ▸ hm)
      · have hml : mline = "end_of_record".data := by simpa using h
        rw [hml]; decide
  have hsf1 : "SF:".data.isPrefixOf ("SF:".data ++ f.data) = true :=
    isPrefixOf_append_self _ _
  have hdropSF : ("SF:".data ++ f.data).drop 3 = f.data := rfl
  have he1 : "SF:".data.isPrefixOf "end_of_record".data = false := by decide
  have he2 : "DA:".data.isPrefixOf "end_of_record".data = false := by decide
  have hk : ¬ (String.mk (trimChars f.data)) = "" :=
    fun h => hkey (congrArg String.data h)
  unfold parseLcovContent
  rw [show (String.mk (lcovRecord f pairs)).data = lcovRecord f pairs from rfl, hlines]
  simp only [parseLcovLines, hsf1, if_true, hdropSF]
  rw [show lcovFlush root none 0 0 [] = [] from rfl]
  rw [parseLcovLines_da_loop]
  simp only [parseLcovLines, he1, Bool.false_eq_true, if_false, he2, lcovFlush, hk,
    Nat.zero_add]
  simp [aggSet]

/-- **C8.** The lcov parser delimits each record by an `SF:` source-file
marker and an `end_of_record` end marker; every `DA:` data line adds one to
the file's total-line count and adds one to its covered-line count exactly
when its hit count is `> 0`; consequently a report with one file having 8 of
its 10 data lines hit maps to the `FileCoverage`
`⟨coveredLines 8, totalLines 10, lineCoveragePercent 80.00⟩` for that edited
file. -/
theorem parseLcov_record_spec (root : List String) (f : String)
    (pairs : List (Nat × Nat)) (hf : '\n' ∉ f.data)
    (hkey : ¬ trimChars f.data = []) :
    parseLcovContent root (String.mk (lcovRecord f pairs)) =
      [(normalizeLcovPath root (String.mk (trimChars f.data)),
        ⟨(pairs.filter (fun pr => 0 < pr.2)).length, pairs.length⟩)] ∧
    ((pairs.filter (fun pr => 0 < pr.2)).length = 8 → pairs.length = 10 →
      ∀ p : String,
        normalizePathStr p = normalizeLcovPath root (String.mk (trimChars f.data)) →
        toCoverageEntry p
            (aggLookup (parseLcovContent root (String.mk (lcovRecord f pairs)))
              (normalizePathStr p)) =
          ⟨normalizePathStr p, 8, 10, some 80⟩) := by
  have hrec := parseLcov_record root f pairs hf hkey
  refine ⟨hrec, ?_⟩
  intro h8 h10 p hp
  rw [hrec, h8, h10]
  have hlook : aggLookup
      [(normalizeLcovPath root (String.mk (trimChars f.data)),
        (⟨8, 10⟩ : CoverageAggregate))]
      (normalizePathStr p) =
      some ⟨8, 10⟩ := by
    rw [hp]; simp [aggLookup]
  rw [hlook]
  show FileCoverage.mk (normalizePathStr p) 8 10
      (if (10 : Nat) = 0 then none else some (round2 (((8 : ℚ) / (10 : ℚ)) * 100))) =
    FileCoverage.mk (normalizePathStr p) 8 10 (some 80)
  have h100 : ((8 : ℚ) / (10 : ℚ)) * 100 = 80 := by norm_num
  have hr : round2 (80 : ℚ) = 80 := by
    unfold round2
    rw [show (80 : ℚ) * 100 = ((8000 : ℤ) : ℚ) by norm_num, round_intCast]
    norm_num
  simp [h100, hr]

/-- Witness for C8 at a concrete one-file report: `src/a.ts` with data lines
1–10 of which lines 3 and 6 have hit count 0. -/
theorem parseLcov_record_spec_witness :
    toCoverageEntry "src/a.ts"
        (aggLookup
          (parseLcovContent ["repo"]
            (String.mk (lcovRecord "src/a.ts"
              [(1, 1), (2, 1), (3, 0), (4, 1), (5, 1),
               (6, 0), (7, 1), (8, 1), (9, 1), (10, 1)])))
          (normalizePathStr "src/a.ts")) =
      ⟨normalizePathStr "src/a.ts", 8, 10, some 80⟩ :=
  (parseLcov_record_spec ["repo"] "src/a.ts"
      [(1, 1), (2, 1), (3, 0), (4, 1), (5, 1), (6, 0), (7, 1), (8, 1), (9, 1), (10, 1)]
      (by decide) (by decide)).2
    (by decide) (by decide) "src/a.ts" (by decide)

/-! ### Coverage percentages in the execution report -/

theorem toCoverageEntry_percent (p : String) (a : Option CoverageAggregate) :
    ((toCoverageEntry p a).lineCoveragePercent = none ↔
      (toCoverageEntry p a).totalLines = 0) ∧
    ∀ q, (toCoverageEntry p a).lineCoveragePercent = some q →
      q = round2 ((((toCoverageEntry p a).coveredLines : ℚ) /
        ((toCoverageEntry p a).totalLines : ℚ)) * 100) := by
  cases a with
  | none => simp [toCoverageEntry]
  | some agg =>
    by_cases h : agg.totalLines = 0
    · simp [toCoverageEntry, h]
    · refine ⟨by simp [toCoverageEntry, h], ?_⟩
      intro q hq
      have hcov : (toCoverageEntry p (some agg)).coveredLines = agg.coveredLines := by
        simp [toCoverageEntry]
      have htot : (toCoverageEntry p (some agg)).totalLines = agg.totalLines := by
        simp [toCoverageEntry]
      have hpct : (toCoverageEntry p (some agg)).lineCoveragePercent =
          some (round2 (((agg.coveredLines : ℚ) / (agg.totalLines : ℚ)) * 100)) := by
        simp [toCoverageEntry, h]
      rw [hcov, htot]
      rw [hpct] at hq
      exact (Option.some.inj hq).symm

theorem computeOverallCoverage_spec (entries : List FileCoverage) :
    (computeOverallCoverage entries = none ↔
      entries.foldl (fun sum item => sum + item.totalLines) 0 = 0) ∧
    ∀ q, computeOverallCoverage entries = some q →
      q = round2 ((((entries.foldl (fun sum item => sum + item.coveredLines) 0 : Nat) : ℚ) /
        ((entries.foldl (fun sum item => sum + item.totalLines) 0 : Nat) : ℚ)) * 100) := by
  by_cases h : entries.foldl (fun sum item => sum + item.totalLines) 0 = 0
  · refine ⟨by simp [computeOverallCoverage, h], ?_⟩
    intro q hq
    simp [computeOverallCoverage, h] at hq
  · refine ⟨by simp [computeOverallCoverage, h], ?_⟩
    intro q hq
    simp only [computeOverallCoverage, if_neg h] at hq
    exact (Option.some.inj hq).symm

theorem finishRun_ok (root : List String) (orig : List (String × Option String))
    (rep : TestExecutionReport) (fsX : FS) (report : TestExecutionReport)
    (h : (finishRun root orig rep fsX).1 = Except.ok report) : report = rep := by
  unfold finishRun at h
  cases hres : (restoreSnapshots root orig fsX).1 with
  | error msg => rw [hres] at h; simp at h
  | ok u =>
    rw [hres] at h
    simp at h
    exact h.symm

theorem runTests_report_shape (root : List String) (repo : RepoSnapshot)
    (edits : List DraftEdit) (outcome : ExecOutcome) (fs : FS)
    (report : TestExecutionReport)
    (h : (runTestsAndCollectCoverage root repo edits outcome fs).1 = Except.ok report) :
    report = noStrategyReport ∨
    ∃ (strategy : TestStrategy) (fsX : FS) (sOut sErr : String),
      report = runSuccessReport strategy (coverageFor fsX root strategy edits) sOut sErr ∨
      report = runFailureReport strategy (coverageFor fsX root strategy edits) sOut sErr := by
  unfold runTestsAndCollectCoverage at h
  cases hstrat : resolveTestStrategy fs root repo with
  | none =>
    rw [hstrat] at h
    simp at h
    exact Or.inl h.symm
  | some strategy =>
    rw [hstrat] at h
    cases hsnap : snapshotEdits fs root edits [] with
    | error msg =>
      rw [hsnap] at h
      simp at h
    | ok orig =>
      rw [hsnap] at h
      cases hap : (applyEdits root edits fs).1 with
      | error msg =>
        rw [hap] at h
        refine Or.inr ⟨strategy, (applyEdits root edits fs).2, "", "", Or.inr ?_⟩
        exact finishRun_ok _ _ _ _ _ h
      | ok u =>
        rw [hap] at h
        cases hok : outcome.ok with
        | true =>
          rw [hok] at h
          refine Or.inr ⟨strategy, outcome.fsTransform (applyEdits root edits fs).2,
            outcome.stdout, outcome.stderr, Or.inl ?_⟩
          exact finishRun_ok _ _ _ _ _ h
        | false =>
          rw [hok] at h
          refine Or.inr ⟨strategy, outcome.fsTransform (applyEdits root edits fs).2,
            outcome.stdout, outcome.stderr, Or.inr ?_⟩
          exact finishRun_ok _ _ _ _ _ h

/-- **C7.** In every report the verification engine returns, a file entry's
`lineCoveragePercent` is `null` exactly when its `totalLines` is `0` and
otherwise equals `100·covered/total` rounded to two decimals; an edited file
with no matching parsed aggregate gets `coveredLines = 0`, `totalLines = 0`
and `null` percent; and `overallLineCoveragePercent` equals the covered-line
sum over the total-line sum of the listed files, rounded to two decimals,
`null` exactly when that denominator is `0`. -/
theorem runTests_coverage_spec (root : List String) (repo : RepoSnapshot)
    (edits : List DraftEdit) (outcome : ExecOutcome) (fs : FS)
    (report : TestExecutionReport)
    (h : (runTestsAndCollectCoverage root repo edits outcome fs).1 = Except.ok report) :
    (∀ entry ∈ report.fileCoverage,
      (entry.lineCoveragePercent = none ↔ entry.totalLines = 0) ∧
      ∀ q, entry.lineCoveragePercent = some q →
        q = round2 (((entry.coveredLines : ℚ) / (entry.totalLines : ℚ)) * 100)) ∧
    (report.overallLineCoveragePercent = none ↔
      report.fileCoverage.foldl (fun sum item => sum + item.totalLines) 0 = 0) ∧
    (∀ q, report.overallLineCoveragePercent = some q →
      q = round2 ((((report.fileCoverage.foldl
          (fun sum item => sum + item.coveredLines) 0 : Nat) : ℚ) /
        ((report.fileCoverage.foldl
          (fun sum item => sum + item.totalLines) 0 : Nat) : ℚ)) * 100)) ∧
    (∀ p, toCoverageEntry p none = ⟨normalizePathStr p, 0, 0, none⟩) := by
  have hshape := runTests_report_shape root repo edits outcome fs report h
  have hentries : ∀ entry ∈ report.fileCoverage, ∃ p a, entry = toCoverageEntry p a := by
    rcases hshape with hno | ⟨strategy, fsX, sOut, sErr, hcase⟩
    · intro entry hent
      rw [hno] at hent
      simp [noStrategyReport] at hent
    · have hmem : report.fileCoverage = coverageFor fsX root strategy edits := by
        rcases hcase with hs | hf
        · rw [hs]; rfl
        · rw [hf]; rfl
      intro entry hent
      rw [hmem] at hent
      unfold coverageFor at hent
      rcases List.mem_map.mp hent with ⟨e, _, he⟩
      exact ⟨e.path, _, he.symm⟩
  have hoverall : report.overallLineCoveragePercent =
      computeOverallCoverage report.fileCoverage := by
    rcases hshape with hno | ⟨strategy, fsX, sOut, sErr, hcase⟩
    · rw [hno]
      rfl
    · rcases hcase with hs | hf
      · rw [hs]; rfl
      · rw [hf]; rfl
  refine ⟨?_, ?_, ?_, fun p => rfl⟩
  · intro entry hent
    rcases hentries entry hent with ⟨p, a, hpa⟩
    rw [hpa]
    exact toCoverageEntry_percent p a
  · rw [hoverall]
    exact (computeOverallCoverage_spec _).1
  · intro q hq
    rw [hoverall] at hq
    exact (computeOverallCoverage_spec _).2 q hq

/-- Witness for C7 at a concrete run (a repository with no Node.js signals, so
the engine reports without executing). -/
theorem runTests_coverage_spec_witness :
    (∀ entry ∈ noStrategyReport.fileCoverage,
      (entry.lineCoveragePercent = none ↔ entry.totalLines = 0) ∧
      ∀ q, entry.lineCoveragePercent = some q →
        q = round2 (((entry.coveredLines : ℚ) / (entry.totalLines : ℚ)) * 100)) ∧
    (noStrategyReport.overallLineCoveragePercent = none ↔
      noStrategyReport.fileCoverage.foldl (fun sum item => sum + item.totalLines) 0 = 0) ∧
    (∀ q, noStrategyReport.overallLineCoveragePercent = some q →
      q = round2 ((((noStrategyReport.fileCoverage.foldl
          (fun sum item => sum + item.coveredLines) 0 : Nat) : ℚ) /
        ((noStrategyReport.fileCoverage.foldl
          (fun sum item => sum + item.totalLines) 0 : Nat) : ℚ)) * 100)) ∧
    (∀ p, toCoverageEntry p none = ⟨normalizePathStr p, 0, 0, none⟩) :=
  runTests_coverage_spec ["repo"]
    ⟨0, [], fun _ => 0, [], [], []⟩ [] ⟨true, "", "", fun g => g⟩ (fun _ => none)
    noStrategyReport (by rfl)

/-! ### Test-strategy resolution -/

theorem detectPackageManager_cases (fs : FS) (root : List String) :
    detectPackageManager fs root = "pnpm" ∨ detectPackageManager fs root = "yarn" ∨
      detectPackageManager fs root = "npm" := by
  unfold detectPackageManager
  by_cases h1 : (fs (joinPath root "pnpm-lock.yaml")).isSome = true
  · simp [h1]
  · by_cases h2 : (fs (joinPath root "yarn.lock")).isSome = true
    · simp [h1, h2]
    · simp [h1, h2]

/-- Counterexample to C3 as stated: a repository whose detected language mix
is Python only (three Python files, a `pyproject.toml` on disk) resolves *no*
strategy at all — the code implements only the Node.js/lcov strategy, and
there is no Python, Go or JVM strategy to pick — and the engine returns the
`executed = false` report. -/
theorem resolveTestStrategy_python_repo :
    ((⟨3, [], fun k => if k = "Python" then 3 else 0, [], ["Python"], []⟩ :
        RepoSnapshot).languageSummary "Python" ≠ 0) ∧
    resolveTestStrategy
        (fun p => if p = ["repo", "pyproject.toml"] then some "[tool.pytest]" else none)
        ["repo"]
        ⟨3, [], fun k => if k = "Python" then 3 else 0, [], ["Python"], []⟩ = none ∧
    (runTestsAndCollectCoverage ["repo"]
        ⟨3, [], fun k => if k = "Python" then 3 else 0, [], ["Python"], []⟩
        [] ⟨true, "", "", fun g => g⟩
        (fun p => if p = ["repo", "pyproject.toml"] then some "[tool.pytest]" else none)).1 =
      Except.ok noStrategyReport ∧
    noStrategyReport.executed = false :=
  ⟨by decide, by decide, by rfl, rfl⟩

/-- **C3 (amended).** The claim as stated is false (see
`resolveTestStrategy_python_repo`): only one strategy family exists.  What
holds: every resolved strategy is the Node.js package-manager strategy — it
requires TypeScript or JavaScript in the language summary, its report path is
always the lcov file `coverage/lcov.info`, and its command is
`pnpm`/`yarn`/`npm` running `test:coverage`, `coverage`, or
`test -- --coverage` — and when no strategy resolves the engine returns, not
throws, the `executed = false` report with the two explanatory notes. -/
theorem resolveTestStrategy_spec (fs : FS) (root : List String) (repo : RepoSnapshot) :
    (∀ strategy, resolveTestStrategy fs root repo = some strategy →
      (repo.languageSummary "TypeScript" ≠ 0 ∨ repo.languageSummary "JavaScript" ≠ 0) ∧
      strategy.lcovRelativePath = "coverage/lcov.info" ∧
      ∃ manager,
        (manager = "pnpm" ∨ manager = "yarn" ∨ manager = "npm") ∧
        (strategy.command = manager ++ " run test:coverage" ∨
         strategy.command = manager ++ " run coverage" ∨
         strategy.command = manager ++ " run test -- --coverage")) ∧
    (resolveTestStrategy fs root repo = none →
      ∀ (edits : List DraftEdit) (outcome : ExecOutcome),
        runTestsAndCollectCoverage root repo edits outcome fs =
          (Except.ok noStrategyReport, fs) ∧
        noStrategyReport.executed = false ∧
        noStrategyReport.notes =
          ["No supported coverage strategy detected.",
           "Currently implemented: JavaScript/TypeScript Node.js repositories with lcov output."]) := by
  constructor
  · intro strategy hstrat
    simp only [resolveTestStrategy] at hstrat
    cases hnode : (repo.languageSummary "TypeScript" != 0 ||
        repo.languageSummary "JavaScript" != 0) with
    | false =>
      rw [hnode] at hstrat
      simp at hstrat
    | true =>
      rw [hnode] at hstrat
      simp only [Bool.not_true, Bool.false_eq_true, if_false] at hstrat
      refine ⟨by simpa [Bool.or_eq_true, bne_iff_ne] using hnode, ?_⟩
      cases h1 : jsTruthy (jsField (scriptsOf (fs (joinPath root "package.json")))
          "test:coverage") with
      | true =>
        rw [h1] at hstrat
        simp at hstrat
        rw [← hstrat]
        exact ⟨rfl, detectPackageManager fs root,
          detectPackageManager_cases fs root, Or.inl rfl⟩
      | false =>
        rw [h1] at hstrat
        simp only [Bool.false_eq_true, if_false] at hstrat
        cases h2 : jsTruthy (jsField (scriptsOf (fs (joinPath root "package.json")))
            "coverage") with
        | true =>
          rw [h2] at hstrat
          simp at hstrat
          rw [← hstrat]
          exact ⟨rfl, detectPackageManager fs root,
            detectPackageManager_cases fs root, Or.inr (Or.inl rfl)⟩
        | false =>
          rw [h2] at hstrat
          simp only [Bool.false_eq_true, if_false] at hstrat
          cases h3 : jsTruthy (jsField (scriptsOf (fs (joinPath root "package.json")))
              "test") with
          | true =>
            rw [h3] at hstrat
            simp at hstrat
            rw [← hstrat]
            exact ⟨rfl, detectPackageManager fs root,
              detectPackageManager_cases fs root, Or.inr (Or.inr rfl)⟩
          | false =>
            rw [h3] at hstrat
            simp at hstrat
  · intro hnone edits outcome
    refine ⟨?_, rfl, rfl⟩
    unfold runTestsAndCollectCoverage
    rw [hnone]

/-- Witness for C3 (amended) at a repository with no Node.js signals. -/
theorem resolveTestStrategy_spec_witness :
    runTestsAndCollectCoverage ["repo"] ⟨0, [], fun _ => 0, [], [], []⟩ []
        ⟨true, "", "", fun g => g⟩ (fun _ => none) =
      (Except.ok noStrategyReport, (fun _ => none : FS)) ∧
    noStrategyReport.executed = false ∧
    noStrategyReport.notes =
      ["No supported coverage strategy detected.",
       "Currently implemented: JavaScript/TypeScript Node.js repositories with lcov output."] :=
  (resolveTestStrategy_spec (fun _ => none) ["repo"] ⟨0, [], fun _ => 0, [], [], []⟩).2
    (by decide) [] ⟨true, "", "", fun g => g⟩

/-! ### Snapshot and restore in the verification engine

The restore loop writes a non-`null` snapshot back through `writeFile`
(which resolves the path with `path.resolve` via `resolveInsideRepo`) but
removes a `null` snapshot at `path.join(repoPath, filePath)`.  For a relative
`filePath` the two agree and the working tree is restored exactly; for an
*absolute* path inside the repository (accepted by `resolveInsideRepo`) they
differ, and a file created by the write loop survives the restore.  -/

theorem snapSet_mem {m : List (String × Option String)} {k : String}
    {v : Option String} :
    ∀ kv ∈ snapSet m k v, kv = (k, v) ∨ kv ∈ m := by
  intro kv hkv
  unfold snapSet at hkv
  by_cases h : m.any (fun kv => kv.1 == k) = true
  · rw [if_pos h] at hkv
    rcases List.mem_map.mp hkv with ⟨kv0, hkv0, heq⟩
    by_cases h2 : kv0.1 = k
    · left; rw [← heq]; simp [h2]
    · right; rw [← heq]; simp [h2]; exact hkv0
  · rw [if_neg h] at hkv
    rcases List.mem_append.mp hkv with h1 | h1
    · right; exact h1
    · left; simpa using h1

theorem snapSet_key_preserved (k : String) (v : Option String)
    {acc : List (String × Option String)} {k0 : String} {w : Option String}
    (h : (k0, w) ∈ acc) : ∃ w2, (k0, w2) ∈ snapSet acc k v := by
  unfold snapSet
  by_cases hany : acc.any (fun kv => kv.1 == k) = true
  · rw [if_pos hany]
    by_cases h2 : k0 = k
    · exact ⟨v, List.mem_map.mpr ⟨(k0, w), h, by simp [h2]⟩⟩
    · exact ⟨w, List.mem_map.mpr ⟨(k0, w), h, by simp [h2]⟩⟩
  · rw [if_neg hany]
    exact ⟨w, List.mem_append.mpr (Or.inl h)⟩

theorem snapSet_new_key (acc : List (String × Option String)) (k : String)
    (v : Option String) : ∃ w, (k, w) ∈ snapSet acc k v := by
  unfold snapSet
  by_cases hany : acc.any (fun kv => kv.1 == k) = true
  · rw [if_pos hany]
    rcases List.any_eq_true.mp hany with ⟨kv0, hkv0, hbeq⟩
    have hk : kv0.1 = k := by simpa using hbeq
    exact ⟨v, List.mem_map.mpr ⟨kv0, hkv0, by simp [hk]⟩⟩
  · rw [if_neg hany]
    exact ⟨v, List.mem_append.mpr (Or.inr (by simp))⟩

theorem snapshotEdits_spec (fs : FS) (root : List String) :
    ∀ (edits : List DraftEdit) (acc m : List (String × Option String)),
      snapshotEdits fs root edits acc = Except.ok m →
      (∀ kv ∈ m, kv ∈ acc ∨
        ((∃ e ∈ edits, kv.1 = e.path) ∧
          readFileIfExists fs root kv.1 = Except.ok kv.2)) ∧
      (∀ e ∈ edits, ∃ w, (e.path, w) ∈ m) ∧
      (∀ k0 w, (k0, w) ∈ acc → ∃ w2, (k0, w2) ∈ m) := by
  intro edits
  induction edits with
  | nil =>
    intro acc m h
    simp only [snapshotEdits] at h
    cases h
    exact ⟨fun kv hkv => Or.inl hkv, by simp, fun k0 w hw => ⟨w, hw⟩⟩
  | cons e rest ih =>
    intro acc m h
    simp only [snapshotEdits] at h
    cases hread : readFileIfExists fs root e.path with
    | error msg =>
      rw [hread] at h
      cases h
    | ok content =>
      rw [hread] at h
      obtain ⟨hA, hB, hC⟩ := ih (snapSet acc e.path content) m h
      refine ⟨?_, ?_, ?_⟩
      · intro kv hkv
        rcases hA kv hkv with hacc | ⟨⟨e2, he2, hp⟩, hr⟩
        · rcases snapSet_mem kv hacc with heq | hmem
          · right
            rw [heq]
            exact ⟨⟨e, by simp, rfl⟩, hread⟩
          · exact Or.inl hmem
        · exact Or.inr ⟨⟨e2, List.mem_cons_of_mem _ he2, hp⟩, hr⟩
      · intro e2 he2
        rcases List.mem_cons.mp he2 with he2 | he2
        · obtain ⟨w, hw⟩ := snapSet_new_key acc e.path content
          rw [he2]
          exact hC e.path w hw
        · exact hB e2 he2
      · intro k0 w hw
        obtain ⟨w2, hw2⟩ := snapSet_key_preserved e.path content hw
        exact hC k0 w2 hw2

theorem restoreSnapshots_value (root : List String) (ρ : List String)
    (target : Option String) :
    ∀ (m : List (String × Option String)) (fsX : FS) (u : Unit) (fsF : FS),
      restoreSnapshots root m fsX = (Except.ok u, fsF) →
      (∀ kv ∈ m, isAbsPath kv.1 = false) →
      (∀ kv ∈ m, resolvePath root kv.1 = ρ → kv.2 = target) →
      ((∃ kv ∈ m, resolvePath root kv.1 = ρ) → fsF ρ = target) ∧
      ((∀ kv ∈ m, resolvePath root kv.1 ≠ ρ) → fsF ρ = fsX ρ) := by
  intro m
  induction m with
  | nil =>
    intro fsX u fsF h _ _
    simp only [restoreSnapshots] at h
    have h2 : fsX = fsF := congrArg Prod.snd h
    constructor
    · rintro ⟨kv, hkv, _⟩
      exact absurd hkv (List.not_mem_nil kv)
    · intro _
      rw [← h2]
  | cons kv0 rest ih =>
    intro fsX u fsF h habs htgt
    rcases kv0 with ⟨p, vo⟩
    have habsp : isAbsPath p = false := by simpa using habs (p, vo) (by simp)
    have hj : joinPath root p = resolvePath root p := by
      simp [resolvePath, joinPath, habsp]
    cases vo with
    | none =>
      simp only [restoreSnapshots] at h
      obtain ⟨ih1, ih2⟩ := ih (fsWrite fsX (joinPath root p) none) u fsF h
        (fun kv hkv => habs kv (List.mem_cons_of_mem _ hkv))
        (fun kv hkv hρ => htgt kv (List.mem_cons_of_mem _ hkv) hρ)
      constructor
      · rintro ⟨kv, hkv, hρ⟩
        rcases List.mem_cons.mp hkv with heq | hmem
        · by_cases hlater : ∃ kv2 ∈ rest, resolvePath root kv2.1 = ρ
          · exact ih1 hlater
          · push_neg at hlater
            rw [heq] at hρ
            have hρp : resolvePath root p = ρ := hρ
            have htv : (none : Option String) = target :=
              htgt (p, none) (by simp) hρp
            rw [ih2 hlater]
            simp [fsWrite, hj, hρp, ← htv]
        · exact ih1 ⟨kv, hmem, hρ⟩
      · intro hnone
        have hne : resolvePath root p ≠ ρ := hnone (p, none) (by simp)
        rw [ih2 (fun kv hkv => hnone kv (List.mem_cons_of_mem _ hkv))]
        simp [fsWrite, hj, Ne.symm hne]
    | some c =>
      simp only [restoreSnapshots] at h
      cases hw : writeFile fsX root p c with
      | error msg =>
        rw [hw] at h
        have := congrArg Prod.fst h
        simp at this
      | ok fs2 =>
        rw [hw] at h
        have hfs2 : fs2 = fsWrite fsX (resolvePath root p) (some c) := by
          unfold writeFile resolveInsideRepo at hw
          by_cases hpre : root.isPrefixOf (resolvePath root p) = true
          · simp only [hpre, if_true] at hw
            exact (Except.ok.inj hw).symm
          · simp [hpre] at hw
        obtain ⟨ih1, ih2⟩ := ih fs2 u fsF h
          (fun kv hkv => habs kv (List.mem_cons_of_mem _ hkv))
          (fun kv hkv hρ => htgt kv (List.mem_cons_of_mem _ hkv) hρ)
        constructor
        · rintro ⟨kv, hkv, hρ⟩
          rcases List.mem_cons.mp hkv with heq | hmem
          · by_cases hlater : ∃ kv2 ∈ rest, resolvePath root kv2.1 = ρ
            · exact ih1 hlater
            · push_neg at hlater
              rw [heq] at hρ
              have hρp : resolvePath root p = ρ := hρ
              have htv : some c = target := htgt (p, some c) (by simp) hρp
              rw [ih2 hlater, hfs2]
              simp [fsWrite, hρp, ← htv]
          · exact ih1 ⟨kv, hmem, hρ⟩
        · intro hnone
          have hne : resolvePath root p ≠ ρ := hnone (p, some c) (by simp)
          rw [ih2 (fun kv hkv => hnone kv (List.mem_cons_of_mem _ hkv)), hfs2]
          simp [fsWrite, Ne.symm hne]

theorem runTests_restores_relative (root : List String) (repo : RepoSnapshot)
    (edits : List DraftEdit) (outcome : ExecOutcome) (fs : FS)
    (hrel : ∀ e ∈ edits, isAbsPath e.path = false)
    (report : TestExecutionReport) (fsF : FS)
    (h : runTestsAndCollectCoverage root repo edits outcome fs = (Except.ok report, fsF)) :
    ∀ e ∈ edits, fsF (resolvePath root e.path) = fs (resolvePath root e.path) := by
  intro e he
  unfold runTestsAndCollectCoverage at h
  cases hstrat : resolveTestStrategy fs root repo with
  | none =>
    rw [hstrat] at h
    have h2 : fs = fsF := congrArg Prod.snd h
    rw [← h2]
  | some strategy =>
    rw [hstrat] at h
    cases hsnap : snapshotEdits fs root edits [] with
    | error msg =>
      rw [hsnap] at h
      have := congrArg Prod.fst h
      simp at this
    | ok orig =>
      rw [hsnap] at h
      obtain ⟨hA, hB, hC⟩ := snapshotEdits_spec fs root edits [] orig hsnap
      have hfin : ∃ (rep : TestExecutionReport) (fsX : FS),
          finishRun root orig rep fsX = (Except.ok report, fsF) := by
        cases hap : (applyEdits root edits fs).1 with
        | error msg =>
          rw [hap] at h
          exact ⟨_, _, h⟩
        | ok u =>
          rw [hap] at h
          cases hok : outcome.ok with
          | true =>
            rw [hok] at h
            simp only [if_true] at h
            exact ⟨_, _, h⟩
          | false =>
            rw [hok] at h
            simp only [Bool.false_eq_true, if_false] at h
            exact ⟨_, _, h⟩
      obtain ⟨rep, fsX, hfin⟩ := hfin
      have hrest : ∃ u, restoreSnapshots root orig fsX = (Except.ok u, fsF) := by
        unfold finishRun at hfin
        cases hres : (restoreSnapshots root orig fsX).1 with
        | error msg =>
          rw [hres] at hfin
          have := congrArg Prod.fst hfin
          simp at this
        | ok u =>
          rw [hres] at hfin
          refine ⟨u, ?_⟩
          rw [Prod.ext_iff]
          exact ⟨hres, by simpa using congrArg Prod.snd hfin⟩
      obtain ⟨u, hrest⟩ := hrest
      have habsm : ∀ kv ∈ orig, isAbsPath kv.1 = false := by
        intro kv hkv
        rcases hA kv hkv with h0 | ⟨⟨e2, he2, hp⟩, _⟩
        · exact absurd h0 (List.not_mem_nil kv)
        · rw [hp]
          exact hrel e2 he2
      have htgt : ∀ kv ∈ orig, resolvePath root kv.1 = resolvePath root e.path →
          kv.2 = fs (resolvePath root e.path) := by
        intro kv hkv hρ
        rcases hA kv hkv with h0 | ⟨_, hr⟩
        · exact absurd h0 (List.not_mem_nil kv)
        · unfold readFileIfExists resolveInsideRepo at hr
          by_cases hpre : root.isPrefixOf (resolvePath root kv.1) = true
          · simp only [hpre, if_true] at hr
            have := Except.ok.inj hr
            rw [← this, hρ]
          · simp [hpre] at hr
      have hmem : ∃ kv ∈ orig, resolvePath root kv.1 = resolvePath root e.path := by
        obtain ⟨w, hw⟩ := hB e he
        exact ⟨(e.path, w), hw, rfl⟩
      exact (restoreSnapshots_value root (resolvePath root e.path)
        (fs (resolvePath root e.path)) orig fsX u fsF hrest habsm htgt).1 hmem

/-- **C1.** The claim is the code's own evident intent — snapshot before the
writes, restore in the `finally` — but the code restores a *removed* file at
`path.join(repoPath, filePath)` while the write used the
`path.resolve`-based `resolveInsideRepo`.  For an absolute edit path that
points inside the repository (accepted by the confinement check) and does not
exist beforehand, the two disagree: below, the call returns normally, yet the
listed path `/repo/a.ts` — absent before the call — still exists afterwards
with the edit's content, because the restore removed `repo/repo/a.ts`
instead.  (For relative edit paths the restoration invariant does hold:
`runTests_restores_relative`.) -/
theorem runTests_absolute_path_not_restored :
    resolveInsideRepo ["repo"] "/repo/a.ts" = Except.ok ["repo", "a.ts"] ∧
    (fun p : List String =>
      if p = ["repo", "package.json"]
      then some "\x7b\"scripts\":\x7b\"test\":\"jest\"\x7d\x7d" else none)
      ["repo", "a.ts"] = none ∧
    joinPath ["repo"] "/repo/a.ts" = ["repo", "repo", "a.ts"] ∧
    (∃ report,
      (runTestsAndCollectCoverage ["repo"]
        ⟨1, [], fun k => if k = "TypeScript" then 1 else 0, [], [], []⟩
        [⟨"/repo/a.ts", "NEW", "add file"⟩] ⟨true, "", "", fun g => g⟩
        (fun p : List String =>
          if p = ["repo", "package.json"]
          then some "\x7b\"scripts\":\x7b\"test\":\"jest\"\x7d\x7d" else none)).1 =
        Except.ok report) ∧
    (runTestsAndCollectCoverage ["repo"]
        ⟨1, [], fun k => if k = "TypeScript" then 1 else 0, [], [], []⟩
        [⟨"/repo/a.ts", "NEW", "add file"⟩] ⟨true, "", "", fun g => g⟩
        (fun p : List String =>
          if p = ["repo", "package.json"]
          then some "\x7b\"scripts\":\x7b\"test\":\"jest\"\x7d\x7d" else none)).2
      ["repo", "a.ts"] = some "NEW" :=
  ⟨by rfl, by decide, by decide, ⟨_, by rfl⟩, by rfl⟩

/-! ### The edit-generation retry loop -/

theorem generateEditsLoop_succ (gen : Nat → String → Except String EditPayload)
    (repo : RepoSnapshot) (remaining calls : Nat) (feedback : String)
    (last : Option EditPayload) :
    generateEditsLoop gen repo (remaining + 1) calls feedback last =
      match gen (MAX_EDIT_ATTEMPTS - remaining) feedback with
      | .error e => (.error e, calls + 1)
      | .ok payload =>
        if passesUnitTestGate payload.edits repo then (.ok payload, calls + 1)
        else
          generateEditsLoop gen repo remaining (calls + 1)
            (feedback ++ "\n" ++ UNIT_TEST_RETRY_FEEDBACK) (some payload) := rfl

theorem generateEditsLoop_calls (gen : Nat → String → Except String EditPayload)
    (repo : RepoSnapshot) :
    ∀ (remaining calls : Nat) (feedback : String) (last : Option EditPayload),
      (generateEditsLoop gen repo remaining calls feedback last).2 ≤ calls + remaining := by
  intro remaining
  induction remaining with
  | zero =>
    intro calls feedback last
    cases last <;> simp [generateEditsLoop]
  | succ r ih =>
    intro calls feedback last
    rw [generateEditsLoop_succ]
    cases hg : gen (MAX_EDIT_ATTEMPTS - r) feedback with
    | error e => simp
    | ok payload =>
      by_cases hgate : passesUnitTestGate payload.edits repo = true
      · simp [hgate]
      · simp only [Bool.not_eq_true] at hgate
        simp [hgate]
        have := ih (calls + 1) (feedback ++ "\n" ++ UNIT_TEST_RETRY_FEEDBACK) (some payload)
        omega

theorem finalizeApprovedRun_resolve_error (git : GitOracle)
    (gen : Nat → String → Except String EditPayload) (run : AgentRunRecord)
    (feedback : Option String) (store : RunStore) (msg : String)
    (hres : resolveFinalEdits gen run feedback = Except.error msg) :
    finalizeApprovedRun git gen run feedback store = (Except.error msg, store, []) ∨
    finalizeApprovedRun git gen run feedback store =
      (Except.error "Run is missing proposal context.", store, []) := by
  cases ht : run.task with
  | none =>
    right
    unfold finalizeApprovedRun
    rw [ht]
  | some t =>
    cases hr : run.repo with
    | none =>
      right
      unfold finalizeApprovedRun
      rw [ht, hr]
    | some r =>
      cases hp : run.proposal with
      | none =>
        right
        unfold finalizeApprovedRun
        rw [ht, hr, hp]
      | some pp =>
        cases hb : run.branchName with
        | none =>
          right
          unfold finalizeApprovedRun
          rw [ht, hr, hp, hb]
        | some bn =>
          left
          unfold finalizeApprovedRun
          rw [ht, hr, hp, hb, hres]

/-- **C5.** The edit-generation loop calls the reasoning service at most
`MAX_EDIT_ATTEMPTS = 2` times; after a first gate failure the fixed corrective
instruction is appended (with a newline) to the feedback of the second
request; exhausting both attempts fails with the gate-exhaustion error, the
last failing payload being discarded; and when edit resolution fails this
way, finalization propagates the error having performed no effect at all — in
particular no write reaches the working tree. -/
theorem generateEdits_gate_spec (gen : Nat → String → Except String EditPayload)
    (repo : RepoSnapshot) (fb : String) :
    (generateEditsWithUnitTestGate gen repo fb).2 ≤ MAX_EDIT_ATTEMPTS ∧
    (∀ p1, gen 1 fb = Except.ok p1 → passesUnitTestGate p1.edits repo = false →
      ∀ p2, gen 2 (fb ++ "\n" ++ UNIT_TEST_RETRY_FEEDBACK) = Except.ok p2 →
        (passesUnitTestGate p2.edits repo = true →
          generateEditsWithUnitTestGate gen repo fb = (Except.ok p2, 2)) ∧
        (passesUnitTestGate p2.edits repo = false →
          generateEditsWithUnitTestGate gen repo fb =
            (Except.error "Generated edits did not include required unit-test updates for the detected tech stack. Please provide feedback and retry.",
             2))) ∧
    (∀ (git : GitOracle) (run : AgentRunRecord) (feedback : Option String)
        (store : RunStore) (msg : String),
      resolveFinalEdits gen run feedback = Except.error msg →
      (∃ msg2, (finalizeApprovedRun git gen run feedback store).1 = Except.error msg2) ∧
      (finalizeApprovedRun git gen run feedback store).2.2 = []) := by
  refine ⟨generateEditsLoop_calls gen repo MAX_EDIT_ATTEMPTS 0 fb none, ?_, ?_⟩
  · intro p1 h1 hgate1 p2 h2
    have hstep : generateEditsWithUnitTestGate gen repo fb =
        generateEditsLoop gen repo 1 1 (fb ++ "\n" ++ UNIT_TEST_RETRY_FEEDBACK) (some p1) := by
      unfold generateEditsWithUnitTestGate
      rw [show MAX_EDIT_ATTEMPTS = 1 + 1 from rfl, generateEditsLoop_succ]
      rw [show MAX_EDIT_ATTEMPTS - 1 = 1 from rfl, h1]
      simp [hgate1]
    constructor
    · intro hgate2
      rw [hstep, show (1 : Nat) = 0 + 1 from rfl, generateEditsLoop_succ]
      rw [show MAX_EDIT_ATTEMPTS - 0 = 2 from rfl, h2]
      simp [hgate2]
    · intro hgate2
      rw [hstep, show (1 : Nat) = 0 + 1 from rfl, generateEditsLoop_succ]
      rw [show MAX_EDIT_ATTEMPTS - 0 = 2 from rfl, h2]
      simp [hgate2, generateEditsLoop]
  · intro git run feedback store msg hres
    rcases finalizeApprovedRun_resolve_error git gen run feedback store msg hres with
      h | h <;> rw [h] <;> exact ⟨⟨_, rfl⟩, rfl⟩

/-- Witness for C5: a reasoning oracle whose first payload (a source edit
with no test) fails the gate and whose second (source plus test edit) passes;
the loop returns the second payload after exactly two requests. -/
theorem generateEdits_gate_spec_witness :
    (passesUnitTestGate
      [⟨"src/a.ts", "x", "r"⟩]
      ⟨1, [], fun k => if k = "TypeScript" then 1 else 0, [], [], []⟩ = false) ∧
    (passesUnitTestGate
      [⟨"src/a.ts", "x", "r"⟩, ⟨"src/a.test.ts", "t", "r"⟩]
      ⟨1, [], fun k => if k = "TypeScript" then 1 else 0, [], [], []⟩ = true) ∧
    generateEditsWithUnitTestGate
      (fun n _ =>
        if n = 1 then Except.ok ⟨[⟨"src/a.ts", "x", "r"⟩], "s", none, none⟩
        else Except.ok ⟨[⟨"src/a.ts", "x", "r"⟩, ⟨"src/a.test.ts", "t", "r"⟩], "s", none, none⟩)
      ⟨1, [], fun k => if k = "TypeScript" then 1 else 0, [], [], []⟩ "fb" =
      (Except.ok ⟨[⟨"src/a.ts", "x", "r"⟩, ⟨"src/a.test.ts", "t", "r"⟩], "s", none, none⟩, 2) :=
  ⟨by decide, by decide,
    ((generateEdits_gate_spec
        (fun n _ =>
          if n = 1 then Except.ok ⟨[⟨"src/a.ts", "x", "r"⟩], "s", none, none⟩
          else Except.ok ⟨[⟨"src/a.ts", "x", "r"⟩, ⟨"src/a.test.ts", "t", "r"⟩], "s", none, none⟩)
        ⟨1, [], fun k => if k = "TypeScript" then 1 else 0, [], [], []⟩ "fb").2.1
      ⟨[⟨"src/a.ts", "x", "r"⟩], "s", none, none⟩ (by rfl) (by decide)
      ⟨[⟨"src/a.ts", "x", "r"⟩, ⟨"src/a.test.ts", "t", "r"⟩], "s", none, none⟩ (by rfl)).1
      (by decide)⟩

/-! ### Dry-run finalization -/

theorem writeEditsTrace_writes (root : List String) :
    ∀ edits : List DraftEdit, ∀ eff ∈ (writeEditsTrace root edits).2,
      ∃ p c, eff = GitEffect.write p c := by
  intro edits
  induction edits with
  | nil =>
    intro eff heff
    simp [writeEditsTrace] at heff
  | cons e rest ih =>
    intro eff heff
    simp only [writeEditsTrace] at heff
    cases hr : resolveInsideRepo root e.path with
    | error msg =>
      rw [hr] at heff
      simp at heff
    | ok p =>
      rw [hr] at heff
      simp only [List.mem_cons] at heff
      rcases heff with heff | heff
      · exact ⟨_, _, heff⟩
      · exact ih eff heff

theorem writeEditsTrace_ok_trace (root : List String) :
    ∀ edits : List DraftEdit, (writeEditsTrace root edits).1 = Except.ok () →
      (writeEditsTrace root edits).2 =
        edits.map (fun e => GitEffect.write e.path e.content) := by
  intro edits
  induction edits with
  | nil => intro _; rfl
  | cons e rest ih =>
    intro h
    simp only [writeEditsTrace] at h ⊢
    cases hr : resolveInsideRepo root e.path with
    | error msg =>
      rw [hr] at h
      exact Except.noConfusion h
    | ok p =>
      rw [hr] at h
      have h2 : (writeEditsTrace root rest).1 = Except.ok () := h
      show GitEffect.write e.path e.content :: (writeEditsTrace root rest).2 =
        GitEffect.write e.path e.content ::
          rest.map (fun e => GitEffect.write e.path e.content)
      rw [ih h2]

theorem finalize_dryRun_shape (git : GitOracle)
    (gen : Nat → String → Except String EditPayload) (run : AgentRunRecord)
    (feedback : Option String) (store : RunStore)
    (hdry : run.input.dryRun = true) :
    (∃ e, finalizeApprovedRun git gen run feedback store = (Except.error e, store, [])) ∨
    (∃ payload msg, resolveFinalEdits gen run feedback = Except.ok payload ∧
      finalizeApprovedRun git gen run feedback store =
        (Except.error msg, store,
          (writeEditsTrace run.input.repoPath payload.edits).2)) ∨
    (∃ payload e, resolveFinalEdits gen run feedback = Except.ok payload ∧
      finalizeApprovedRun git gen run feedback store =
        (Except.error e, store,
          (writeEditsTrace run.input.repoPath payload.edits).2 ++ [GitEffect.diff])) ∨
    (∃ payload store1, resolveFinalEdits gen run feedback = Except.ok payload ∧
      (writeEditsTrace run.input.repoPath payload.edits).1 = Except.ok () ∧
      finalizeApprovedRun git gen run feedback store =
        (Except.ok ⟨payload.edits.map (fun e => e.path), none, none,
          payload.summary ++
            "\n\nDry-run mode is enabled. Review diff and manually commit/push/create MR."⟩,
         store1,
         (writeEditsTrace run.input.repoPath payload.edits).2 ++ [GitEffect.diff])) := by
  cases ht : run.task with
  | none => exact Or.inl ⟨_, by unfold finalizeApprovedRun; rw [ht]⟩
  | some t =>
  cases hr : run.repo with
  | none => exact Or.inl ⟨_, by unfold finalizeApprovedRun; rw [ht, hr]⟩
  | some r =>
  cases hp : run.proposal with
  | none => exact Or.inl ⟨_, by unfold finalizeApprovedRun; rw [ht, hr, hp]⟩
  | some pp =>
  cases hb : run.branchName with
  | none => exact Or.inl ⟨_, by unfold finalizeApprovedRun; rw [ht, hr, hp, hb]⟩
  | some bn =>
  cases hres : resolveFinalEdits gen run feedback with
  | error e =>
    exact Or.inl ⟨e, by unfold finalizeApprovedRun; rw [ht, hr, hp, hb, hres]⟩
  | ok payload =>
  cases hwt : writeEditsTrace run.input.repoPath payload.edits with
  | mk wres wtrace =>
  cases wres with
  | error msg =>
    refine Or.inr (Or.inl ⟨payload, msg, rfl, ?_⟩)
    simp only [finalizeApprovedRun, ht, hr, hp, hb, hres, hwt]
  | ok u =>
  cases u
  cases hupd : updateRun store run.runId
      (fun r => { r with diffPreview := some git.diffResult }) with
  | error e =>
    refine Or.inr (Or.inr (Or.inl ⟨payload, e, rfl, ?_⟩))
    simp only [finalizeApprovedRun, ht, hr, hp, hb, hres, hwt, hupd]
  | ok pr =>
    rcases pr with ⟨rec1, store1⟩
    refine Or.inr (Or.inr (Or.inr ⟨payload, store1, rfl, by rw [hwt], ?_⟩))
    simp only [finalizeApprovedRun, ht, hr, hp, hb, hres, hwt, hupd, hdry, if_true]

/-- **C9.** With `dryRun = true` on the run's input, finalization writes the
resolved edits, computes a diff, then stops: any effect in its trace is a
repository write or the diff computation — never a commit, a push, or a
merge-request call — and a successful finalization reports no commit sha and
no merge-request URL, its trace being exactly one write per resolved edit
followed by the diff. -/
theorem finalize_dryRun_spec (git : GitOracle)
    (gen : Nat → String → Except String EditPayload) (run : AgentRunRecord)
    (feedback : Option String) (store : RunStore)
    (hdry : run.input.dryRun = true) :
    (∀ res store2 trace,
      finalizeApprovedRun git gen run feedback store = (res, store2, trace) →
      ∀ eff ∈ trace,
        (∀ msg, eff ≠ GitEffect.commit msg) ∧
        (∀ b, eff ≠ GitEffect.push b) ∧
        (∀ a b c d, eff ≠ GitEffect.mergeRequest a b c d)) ∧
    (∀ result store2 trace,
      finalizeApprovedRun git gen run feedback store = (Except.ok result, store2, trace) →
      result.commitSha = none ∧ result.mergeRequestUrl = none ∧
      ∃ payload, resolveFinalEdits gen run feedback = Except.ok payload ∧
        trace = payload.edits.map (fun e => GitEffect.write e.path e.content)
          ++ [GitEffect.diff] ∧
        result.changedFiles = payload.edits.map (fun e => e.path)) := by
  have hshape := finalize_dryRun_shape git gen run feedback store hdry
  constructor
  · intro res store2 trace heq eff heff
    have htr : trace = [] ∨
        (∃ payload : EditPayload,
          trace = (writeEditsTrace run.input.repoPath payload.edits).2) ∨
        (∃ payload : EditPayload, trace =
          (writeEditsTrace run.input.repoPath payload.edits).2 ++ [GitEffect.diff]) := by
      rcases hshape with ⟨e, hfin⟩ | ⟨payload, msg, _, hfin⟩ | ⟨payload, e, _, hfin⟩ |
        ⟨payload, store1, _, _, hfin⟩
      · rw [hfin] at heq
        injection heq with h1 h23
        injection h23 with h2 h3
        exact Or.inl h3.symm
      · rw [hfin] at heq
        injection heq with h1 h23
        injection h23 with h2 h3
        exact Or.inr (Or.inl ⟨payload, h3.symm⟩)
      · rw [hfin] at heq
        injection heq with h1 h23
        injection h23 with h2 h3
        exact Or.inr (Or.inr ⟨payload, h3.symm⟩)
      · rw [hfin] at heq
        injection heq with h1 h23
        injection h23 with h2 h3
        exact Or.inr (Or.inr ⟨payload, h3.symm⟩)
    have heffshape : (∃ p c, eff = GitEffect.write p c) ∨ eff = GitEffect.diff := by
      rcases htr with h | ⟨payload, h⟩ | ⟨payload, h⟩
      · rw [h] at heff
        exact absurd heff (List.not_mem_nil eff)
      · rw [h] at heff
        exact Or.inl (writeEditsTrace_writes run.input.repoPath payload.edits eff heff)
      · rw [h] at heff
        rcases List.mem_append.mp heff with h2 | h2
        · exact Or.inl (writeEditsTrace_writes run.input.repoPath payload.edits eff h2)
        · right
          simpa using h2
    rcases heffshape with ⟨p, c, rfl⟩ | rfl
    · exact ⟨fun m => by simp, fun b => by simp, fun a b c2 d => by simp⟩
    · exact ⟨fun m => by simp, fun b => by simp, fun a b c2 d => by simp⟩
  · intro result store2 trace heq
    rcases hshape with ⟨e, hfin⟩ | ⟨payload, msg, _, hfin⟩ | ⟨payload, e, _, hfin⟩ |
      ⟨payload, store1, hres, hwok, hfin⟩
    · rw [hfin] at heq
      injection heq with h1 _
      exact Except.noConfusion h1
    · rw [hfin] at heq
      injection heq with h1 _
      exact Except.noConfusion h1
    · rw [hfin] at heq
      injection heq with h1 _
      exact Except.noConfusion h1
    · rw [hfin] at heq
      injection heq with h1 h23
      injection h23 with h2 h3
      have hres1 := Except.ok.inj h1
      refine ⟨by rw [← hres1], by rw [← hres1], payload, hres, ?_, by rw [← hres1]⟩
      rw [← h3, writeEditsTrace_ok_trace run.input.repoPath payload.edits hwok]

/-- Witness for C9: a dry-run approved run with one usable staged edit; the
finalization returns no commit sha and no merge-request URL, and its trace is
exactly the one write and the diff. -/
theorem finalize_dryRun_spec_witness :
    (⟨["a.ts"], none, none,
      "Applied previously staged draft edits after approval.\n\nDry-run mode is enabled. Review diff and manually commit/push/create MR."⟩ :
        FinalizeResult).commitSha = none ∧
    (⟨["a.ts"], none, none,
      "Applied previously staged draft edits after approval.\n\nDry-run mode is enabled. Review diff and manually commit/push/create MR."⟩ :
        FinalizeResult).mergeRequestUrl = none ∧
    ∃ payload,
      resolveFinalEdits (fun _ _ => Except.error "unused")
          ⟨"r1", "t0", ⟨"T-1", "jira", ["repo"], "main", true⟩, RunStatus.applying,
            some ⟨"T-1", "title", "desc", []⟩, some ⟨0, [], fun _ => 0, [], [], []⟩,
            some ⟨"br", "commit", "pr"⟩, some [⟨"a.ts", "A", "r"⟩], some "branch",
            none, [], none, none, none⟩ none = Except.ok payload ∧
      [GitEffect.write "a.ts" "A", GitEffect.diff] =
        payload.edits.map (fun e => GitEffect.write e.path e.content)
          ++ [GitEffect.diff] ∧
      (⟨["a.ts"], none, none,
        "Applied previously staged draft edits after approval.\n\nDry-run mode is enabled. Review diff and manually commit/push/create MR."⟩ :
          FinalizeResult).changedFiles = payload.edits.map (fun e => e.path) :=
  (finalize_dryRun_spec ⟨"DIFF", Except.ok "sha", Except.ok (), Except.ok none⟩
      (fun _ _ => Except.error "unused")
      ⟨"r1", "t0", ⟨"T-1", "jira", ["repo"], "main", true⟩, RunStatus.applying,
        some ⟨"T-1", "title", "desc", []⟩, some ⟨0, [], fun _ => 0, [], [], []⟩,
        some ⟨"br", "commit", "pr"⟩, some [⟨"a.ts", "A", "r"⟩], some "branch",
        none, [], none, none, none⟩ none
      (fun k => if k = "r1"
        then some ⟨"r1", "t0", ⟨"T-1", "jira", ["repo"], "main", true⟩,
          RunStatus.applying, some ⟨"T-1", "title", "desc", []⟩,
          some ⟨0, [], fun _ => 0, [], [], []⟩, some ⟨"br", "commit", "pr"⟩,
          some [⟨"a.ts", "A", "r"⟩], some "branch", none, [], none, none, none⟩
        else none)
      rfl).2
    ⟨["a.ts"], none, none,
      "Applied previously staged draft edits after approval.\n\nDry-run mode is enabled. Review diff and manually commit/push/create MR."⟩
    (storeSet
      (fun k => if k = "r1"
        then some ⟨"r1", "t0", ⟨"T-1", "jira", ["repo"], "main", true⟩,
          RunStatus.applying, some ⟨"T-1", "title", "desc", []⟩,
          some ⟨0, [], fun _ => 0, [], [], []⟩, some ⟨"br", "commit", "pr"⟩,
          some [⟨"a.ts", "A", "r"⟩], some "branch", none, [], none, none, none⟩
        else none)
      "r1"
      ⟨"r1", "t0", ⟨"T-1", "jira", ["repo"], "main", true⟩, RunStatus.applying,
        some ⟨"T-1", "title", "desc", []⟩, some ⟨0, [], fun _ => 0, [], [], []⟩,
        some ⟨"br", "commit", "pr"⟩, some [⟨"a.ts", "A", "r"⟩], some "branch",
        some "DIFF", [], none, none, none⟩)
    [GitEffect.write "a.ts" "A", GitEffect.diff]
    (by rfl)

/-! ### Approval and rejection -/

theorem updateRun_ok_shape (store : RunStore) (runId : String)
    (f : AgentRunRecord → AgentRunRecord) (rec : AgentRunRecord) (store2 : RunStore)
    (h : updateRun store runId f = Except.ok (rec, store2)) :
    ∃ existing, store runId = some existing ∧ rec = f existing ∧
      store2 = storeSet store runId (f existing) := by
  unfold updateRun at h
  cases hs : store runId with
  | none =>
    rw [hs] at h
    exact Except.noConfusion h
  | some existing =>
    rw [hs] at h
    have h2 := Except.ok.inj h
    injection h2 with ha hb
    exact ⟨existing, rfl, ha.symm, hb.symm⟩

theorem finalizeApprovedRun_store (git : GitOracle)
    (gen : Nat → String → Except String EditPayload) (run : AgentRunRecord)
    (feedback : Option String) (store : RunStore) :
    ∀ res store2 trace,
      finalizeApprovedRun git gen run feedback store = (res, store2, trace) →
      store2 = store ∨
      ∃ rec1, updateRun store run.runId
        (fun r => { r with diffPreview := some git.diffResult }) =
          Except.ok (rec1, store2) := by
  intro res store2 trace heq
  cases ht : run.task with
  | none =>
    left
    simp only [finalizeApprovedRun, ht] at heq
    injection heq with h1 h23
    injection h23 with h2 h3
    exact h2.symm
  | some t =>
  cases hr : run.repo with
  | none =>
    left
    simp only [finalizeApprovedRun, ht, hr] at heq
    injection heq with h1 h23
    injection h23 with h2 h3
    exact h2.symm
  | some r =>
  cases hp : run.proposal with
  | none =>
    left
    simp only [finalizeApprovedRun, ht, hr, hp] at heq
    injection heq with h1 h23
    injection h23 with h2 h3
    exact h2.symm
  | some pp =>
  cases hb : run.branchName with
  | none =>
    left
    simp only [finalizeApprovedRun, ht, hr, hp, hb] at heq
    injection heq with h1 h23
    injection h23 with h2 h3
    exact h2.symm
  | some bn =>
  cases hres : resolveFinalEdits gen run feedback with
  | error e =>
    left
    simp only [finalizeApprovedRun, ht, hr, hp, hb, hres] at heq
    injection heq with h1 h23
    injection h23 with h2 h3
    exact h2.symm
  | ok payload =>
  cases hwt : writeEditsTrace run.input.repoPath payload.edits with
  | mk wres wtrace =>
  cases wres with
  | error msg =>
    left
    simp only [finalizeApprovedRun, ht, hr, hp, hb, hres, hwt] at heq
    injection heq with h1 h23
    injection h23 with h2 h3
    exact h2.symm
  | ok u =>
  cases u
  cases hupd : updateRun store run.runId
      (fun r => { r with diffPreview := some git.diffResult }) with
  | error e =>
    left
    simp only [finalizeApprovedRun, ht, hr, hp, hb, hres, hwt, hupd] at heq
    injection heq with h1 h23
    injection h23 with h2 h3
    exact h2.symm
  | ok pr =>
    rcases pr with ⟨rec1, store1⟩
    right
    refine ⟨rec1, ?_⟩
    have hs2 : store2 = store1 := by
      cases hdry : run.input.dryRun with
      | true =>
        simp only [finalizeApprovedRun, ht, hr, hp, hb, hres, hwt, hupd, hdry,
          if_true] at heq
        injection heq with h1 h23
        injection h23 with h2 h3
        exact h2.symm
      | false =>
        cases hc : git.commitResult with
        | error e =>
          simp only [finalizeApprovedRun, ht, hr, hp, hb, hres, hwt, hupd, hdry,
            Bool.false_eq_true, if_false, hc] at heq
          injection heq with h1 h23
          injection h23 with h2 h3
          exact h2.symm
        | ok sha =>
          cases hpsh : git.pushResult with
          | error e =>
            simp only [finalizeApprovedRun, ht, hr, hp, hb, hres, hwt, hupd, hdry,
              Bool.false_eq_true, if_false, hc, hpsh] at heq
            injection heq with h1 h23
            injection h23 with h2 h3
            exact h2.symm
          | ok uu =>
            cases uu
            cases hmr : git.mergeRequestResult with
            | error e =>
              simp only [finalizeApprovedRun, ht, hr, hp, hb, hres, hwt, hupd, hdry,
                Bool.false_eq_true, if_false, hc, hpsh, hmr] at heq
              injection heq with h1 h23
              injection h23 with h2 h3
              exact h2.symm
            | ok mr =>
              simp only [finalizeApprovedRun, ht, hr, hp, hb, hres, hwt, hupd, hdry,
                Bool.false_eq_true, if_false, hc, hpsh, hmr] at heq
              injection heq with h1 h23
              injection h23 with h2 h3
              exact h2.symm
    subst hs2
    rfl

/-- Counterexample to C2 as stated: approving a run that exists but lacks its
proposal context (here `task = none`, as after a failed pipeline stage).
`approveOrRejectRun` first marks the run `applying`, then
`finalizeApprovedRun` throws `Run is missing proposal context.` — and since
the approval path has no `try`/`catch`, the call errors instead of returning
a record, no `failed` status is ever set, and the stored run is left at the
intermediate status `applying` permanently. -/
theorem approveOrRejectRun_stuck_applying :
    (((fun k => if k = "r1"
      then some (⟨"r1", "t0", ⟨"T-1", "jira", ["repo"], "main", false⟩,
        RunStatus.awaiting_approval, none, none, none, none, none,
        none, [], none, none, none⟩ : AgentRunRecord)
      else none) : RunStore) "r1").isSome = true ∧
    (approveOrRejectRun ⟨"DIFF", Except.ok "sha", Except.ok (), Except.ok none⟩
        (fun _ _ => Except.error "gen unused") "r1" true none
        (fun k => if k = "r1"
          then some ⟨"r1", "t0", ⟨"T-1", "jira", ["repo"], "main", false⟩,
            RunStatus.awaiting_approval, none, none, none, none, none,
            none, [], none, none, none⟩
          else none)).1 = Except.error "Run is missing proposal context." ∧
    (((approveOrRejectRun ⟨"DIFF", Except.ok "sha", Except.ok (), Except.ok none⟩
        (fun _ _ => Except.error "gen unused") "r1" true none
        (fun k => if k = "r1"
          then some ⟨"r1", "t0", ⟨"T-1", "jira", ["repo"], "main", false⟩,
            RunStatus.awaiting_approval, none, none, none, none, none,
            none, [], none, none, none⟩
          else none)).2.1 "r1").map (fun r => r.status)) = some RunStatus.applying :=
  ⟨by rfl, by rfl, by rfl⟩

/-- **C2 (amended).** The claim as stated is false (see
`approveOrRejectRun_stuck_applying`): the approval path sets no `failed`
status and has no `try`/`catch`.  What holds: every record the call *returns*
has status `rejected` (when `approved = false`) or `done` (when
`approved = true`); and when an existing, consistently-keyed run is approved
and any finalize stage throws, the call propagates the error while the stored
run remains at the intermediate status `applying`. -/
theorem approveOrRejectRun_spec (git : GitOracle)
    (gen : Nat → String → Except String EditPayload) (runId : String)
    (approved : Bool) (feedback : Option String) (store : RunStore) :
    (∀ rec store2 trace,
      approveOrRejectRun git gen runId approved feedback store =
        (Except.ok rec, store2, trace) →
      (approved = false → rec.status = RunStatus.rejected) ∧
      (approved = true → rec.status = RunStatus.done)) ∧
    (∀ run, store runId = some run → run.runId = runId → approved = true →
      ∀ e store2 trace,
        approveOrRejectRun git gen runId approved feedback store =
          (Except.error e, store2, trace) →
        ∃ rec, store2 runId = some rec ∧ rec.status = RunStatus.applying) := by
  constructor
  · intro rec store2 trace heq
    cases hs : store runId with
    | none =>
      simp only [approveOrRejectRun, hs] at heq
      injection heq with h1 h23
      exact Except.noConfusion h1
    | some run =>
      cases happr : approved with
      | false =>
        simp only [approveOrRejectRun, hs, happr, Bool.not_false, if_true] at heq
        split at heq
        · rename_i e hupd
          injection heq with h1 h23
          exact Except.noConfusion h1
        · rename_i merged store1 hupd
          injection heq with h1 h23
          have hrec := Except.ok.inj h1
          obtain ⟨existing, hex, hmerged, hst⟩ :=
            updateRun_ok_shape _ _ _ _ _ hupd
          refine ⟨fun _ => ?_, fun habs => absurd habs (by simp [happr])⟩
          rw [← hrec, hmerged]
      | true =>
        simp only [approveOrRejectRun, hs, happr, Bool.not_true,
          Bool.false_eq_true, if_false] at heq
        split at heq
        · rename_i e hupd
          injection heq with h1 h23
          exact Except.noConfusion h1
        · rename_i pr hupd
          split at heq
          · rename_i e storeF traceF hfin
            injection heq with h1 h23
            exact Except.noConfusion h1
          · rename_i finalized storeF traceF hfin
            split at heq
            · rename_i e hupd2
              injection heq with h1 h23
              exact Except.noConfusion h1
            · rename_i merged store3 hupd2
              injection heq with h1 h23
              have hrec := Except.ok.inj h1
              obtain ⟨existing, hex, hmerged, hst⟩ :=
                updateRun_ok_shape _ _ _ _ _ hupd2
              refine ⟨fun habs => absurd habs (by simp [happr]), fun _ => ?_⟩
              rw [← hrec, hmerged]
  · intro run hs hid happ e store2 trace heq
    subst happ
    simp only [approveOrRejectRun, hs, Bool.not_true, Bool.false_eq_true,
      if_false] at heq
    split at heq
    · rename_i e2 hupd
      unfold updateRun at hupd
      rw [hid, hs] at hupd
      exact Except.noConfusion hupd
    · rename_i rec1 store1 hupd
      obtain ⟨existing, hex, hrec1, hst1⟩ := updateRun_ok_shape _ _ _ _ _ hupd
      rw [hid, hs] at hex
      have hexr : existing = run := by
        injection hex with hx
        exact hx.symm
      have hstat1 : store1 runId = some { run with status := RunStatus.applying } := by
        rw [hst1, hexr]
        simp [storeSet, hid]
      split at heq
      · rename_i e2 storeF traceF hfin
        injection heq with h1 h23
        injection h23 with h2 h3
        rcases finalizeApprovedRun_store git gen run feedback store1 _ _ _ hfin with
          hsame | ⟨rec2, hupd2⟩
        · refine ⟨{ run with status := RunStatus.applying }, ?_, rfl⟩
          rw [← h2, hsame]
          exact hstat1
        · obtain ⟨existing2, hex2, hrec2, hst2⟩ := updateRun_ok_shape _ _ _ _ _ hupd2
          rw [hid, hstat1] at hex2
          have hex2r : existing2 = { run with status := RunStatus.applying } := by
            injection hex2 with hx
            exact hx.symm
          refine ⟨{ { run with status := RunStatus.applying } with
            diffPreview := some git.diffResult }, ?_, rfl⟩
          rw [← h2, hst2, hex2r]
          simp [storeSet, hid]
      · rename_i finalized storeF traceF hfin
        split at heq
        · rename_i e2 hupd2
          rcases finalizeApprovedRun_store git gen run feedback store1 _ _ _ hfin with
            hsame | ⟨rec2, hupd3⟩
          · unfold updateRun at hupd2
            rw [hid, hsame, hstat1] at hupd2
            exact Except.noConfusion hupd2
          · obtain ⟨existing2, hex2, hrec2, hst2⟩ := updateRun_ok_shape _ _ _ _ _ hupd3
            have hlook : storeF run.runId =
                some ((fun r => { r with diffPreview := some git.diffResult })
                  existing2) := by
              rw [hst2]
              simp [storeSet]
            unfold updateRun at hupd2
            rw [hlook] at hupd2
            exact Except.noConfusion hupd2
        · rename_i merged store3 hupd2
          injection heq with h1 h23
          exact Except.noConfusion h1

/-- Witness for C2 (amended): rejecting an existing run returns a record with
status `rejected`. -/
theorem approveOrRejectRun_spec_witness :
    (false = false →
      ({ (⟨"r1", "t0", ⟨"T-1", "jira", ["repo"], "main", false⟩,
          RunStatus.awaiting_approval, none, none, none, none, none,
          none, [], none, none, none⟩ : AgentRunRecord) with
        status := RunStatus.rejected, feedbackHistory := ["bad"],
        finalSummary := some "Run rejected by reviewer." }).status =
        RunStatus.rejected) ∧
    (false = true →
      ({ (⟨"r1", "t0", ⟨"T-1", "jira", ["repo"], "main", false⟩,
          RunStatus.awaiting_approval, none, none, none, none, none,
          none, [], none, none, none⟩ : AgentRunRecord) with
        status := RunStatus.rejected, feedbackHistory := ["bad"],
        finalSummary := some "Run rejected by reviewer." }).status =
        RunStatus.done) :=
  (approveOrRejectRun_spec ⟨"DIFF", Except.ok "sha", Except.ok (), Except.ok none⟩
      (fun _ _ => Except.error "gen unused") "r1" false (some "bad")
      (fun k => if k = "r1"
        then some ⟨"r1", "t0", ⟨"T-1", "jira", ["repo"], "main", false⟩,
          RunStatus.awaiting_approval, none, none, none, none, none,
          none, [], none, none, none⟩
        else none)).1
    ({ (⟨"r1", "t0", ⟨"T-1", "jira", ["repo"], "main", false⟩,
        RunStatus.awaiting_approval, none, none, none, none, none,
        none, [], none, none, none⟩ : AgentRunRecord) with
      status := RunStatus.rejected, feedbackHistory := ["bad"],
      finalSummary := some "Run rejected by reviewer." })
    (storeSet
      (fun k => if k = "r1"
        then some ⟨"r1", "t0", ⟨"T-1", "jira", ["repo"], "main", false⟩,
          RunStatus.awaiting_approval, none, none, none, none, none,
          none, [], none, none, none⟩
        else none)
      "r1"
      { (⟨"r1", "t0", ⟨"T-1", "jira", ["repo"], "main", false⟩,
          RunStatus.awaiting_approval, none, none, none, none, none,
          none, [], none, none, none⟩ : AgentRunRecord) with
        status := RunStatus.rejected, feedbackHistory := ["bad"],
        finalSummary := some "Run rejected by reviewer." })
    [GitEffect.feedback ["repo"] "bad" false]
    (by rfl)

end Agent
